import Mathlib

/-!
Verification development for the Chatfield conversation-orchestration core
(`chatfield/interviewer.py`, `chatfield/merge.py`, `chatfield/builder.py`).

Shallow embedding notes:
- Python strings are Lean `String`s (lists of Unicode scalar values);
  positions where Python indexes bytes do not arise in the modelled code.
- Python `None` / dict / list values stored in interview state are embedded
  as the `PVal` tree defined below.
- Fallible Python code (raise) is embedded with `Except String`.
-/

deriving instance DecidableEq for Except

/-! ### Field Name Codec (`encode_field_name` / `decode_field_name`) -/

/-- The safe-character test from `encode_field_name`: membership in
`abcdefghijklmnopqrstuvwxyzABCDEFGHIJKLMNOPQRSTUVWXYZ0123456789_`. -/
def isSafeChar (c : Char) : Bool :=
  decide (('a' ≤ c ∧ c ≤ 'z') ∨ ('A' ≤ c ∧ c ≤ 'Z') ∨ ('0' ≤ c ∧ c ≤ '9') ∨ c = '_')

/-- Python 3 `keyword.kwlist`. -/
def pythonKeywords : List String :=
  ["False", "None", "True", "and", "as", "assert", "async", "await", "break",
   "class", "continue", "def", "del", "elif", "else", "except", "finally",
   "for", "from", "global", "if", "import", "in", "is", "lambda", "nonlocal",
   "not", "or", "pass", "raise", "return", "try", "while", "with", "yield"]

/-- Python `keyword.iskeyword`. -/
def isPyKeyword (s : String) : Bool := decide (s ∈ pythonKeywords)

/-- Python `str.startswith`. -/
def strStartsWith (s pre : String) : Bool := pre.data.isPrefixOf s.data

/-- The fast-path guard of `encode_field_name`:
`field_name.isidentifier() and not keyword.iskeyword(field_name)`,
then the all-safe-characters check, then `not field_name.startswith('field_')`.
For a string whose characters all pass `isSafeChar` (ASCII letters, digits,
underscore), Python's `isidentifier()` holds exactly when the string is
nonempty and does not start with a digit, so the conjunction below is the
source's condition verbatim. -/
def fastPathOk (s : String) : Bool :=
  match s.data with
  | [] => false
  | c :: _ =>
    s.data.all isSafeChar && !c.isDigit && !(isPyKeyword s) && !(strStartsWith s "field_")

/-- Uppercase hexadecimal digit, as produced by Python's format spec `X`. -/
def hexDigitChar (n : Nat) : Char :=
  ['0', '1', '2', '3', '4', '5', '6', '7', '8', '9', 'A', 'B', 'C', 'D', 'E', 'F'].getD n '0'

/-- Uppercase hexadecimal digits of `n`, most significant first (empty for 0).
The fuel argument is an embedding artifact: 8 digits cover every Unicode
code point, which is all `encode_field_name` ever formats. -/
def hexCharsF : Nat → Nat → List Char
  | 0, _ => []
  | fuel + 1, n => if n = 0 then [] else hexCharsF fuel (n / 16) ++ [hexDigitChar (n % 16)]

/-- Python `f-string` hex of a code point, padded to at least two digits:
`hex_code = f'{char_code:X}'; if len(hex_code) < 2: hex_code = '0' + hex_code`
(for 0 the format yields `'0'`, padded to `'00'`). -/
def toHexMin2 (n : Nat) : List Char :=
  if n = 0 then ['0', '0']
  else if (hexCharsF 8 n).length < 2 then '0' :: hexCharsF 8 n else hexCharsF 8 n

/-- One character of the escape loop: safe characters are copied, everything
else becomes `_PCT<hex>_`. -/
def encodeCharL (c : Char) : List Char :=
  if isSafeChar c then [c] else '_' :: 'P' :: 'C' :: 'T' :: (toHexMin2 c.toNat ++ ['_'])

/-- The escape loop of `encode_field_name` over the whole character list. -/
def encodeL : List Char → List Char
  | [] => []
  | c :: rest => encodeCharL c ++ encodeL rest

/-- The characters of the escape prefix `'field_'`. -/
def fieldPrefixL : List Char := ['f', 'i', 'e', 'l', 'd', '_']

/-- `encode_field_name` from `chatfield/interviewer.py`. -/
def encode_field_name (s : String) : String :=
  if fastPathOk s then s else String.mk (fieldPrefixL ++ encodeL s.data)

/-- Uppercase-hex-digit test, the character class `[0-9A-F]` of the decode regex. -/
def isHexUp (c : Char) : Bool := decide (('0' ≤ c ∧ c ≤ '9') ∨ ('A' ≤ c ∧ c ≤ 'F'))

/-- Numeric value of an uppercase hex digit. -/
def hexVal (c : Char) : Nat := if c ≤ '9' then c.toNat - 48 else c.toNat - 55

/-- Value of a big-endian list of uppercase hex digits. -/
def hexListVal (l : List Char) : Nat := l.foldl (fun a c => 16 * a + hexVal c) 0

/-- The scan performed by `re.sub(r'_PCT([0-9A-F]+)_', replace_hex, ...)`:
leftmost, non-overlapping matches; `[0-9A-F]+` is greedy and, because `_` is
not a hex digit, a match at a position succeeds exactly when `_PCT` is
followed by a nonempty maximal hex run and then `_`.  The fuel argument is an
embedding artifact; each step consumes at least one character, so fuel equal
to the input length suffices. -/
def decodeCore : Nat → List Char → List Char
  | 0, rest => rest
  | _ + 1, [] => []
  | fuel + 1, c :: rest =>
    if c = '_' then
      match rest with
      | 'P' :: 'C' :: 'T' :: t =>
        let run := t.takeWhile isHexUp
        match run, t.drop run.length with
        | [], _ => c :: decodeCore fuel rest
        | _ :: _, '_' :: t2 => Char.ofNat (hexListVal run) :: decodeCore fuel t2
        | _ :: _, _ => c :: decodeCore fuel rest
      | _ => c :: decodeCore fuel rest
    else c :: decodeCore fuel rest

/-- `decode_field_name` from `chatfield/interviewer.py`. -/
def decode_field_name (s : String) : String :=
  if !(strStartsWith s "field_") then s
  else
    let t := s.data.drop 6
    String.mk (decodeCore t.length t)

/-- Safe Python identifier over the ASCII-safe alphabet: nonempty, every
character an ASCII letter, digit or underscore, and no leading digit. -/
def isSafePyIdentifier (s : String) : Bool :=
  match s.data with
  | [] => false
  | c :: _ => s.data.all isSafeChar && !c.isDigit

/-! ### State values

Python values stored in interview state (`None`, booleans, numbers, strings,
lists, dicts) are embedded as the mutual inductive `PVal`; `PList` and
`PDict` are the list and ordered-dict spines (a nested `List` would defeat
instance derivation in this toolchain). -/

mutual
inductive PVal where
  | vnull
  | vbool (b : Bool)
  | vint (n : Int)
  | vstr (s : String)
  | vlist (items : PList)
  | vdict (entries : PDict)
deriving DecidableEq, Repr

inductive PList where
  | nil
  | cons (v : PVal) (rest : PList)
deriving DecidableEq, Repr

inductive PDict where
  | nil
  | cons (k : String) (v : PVal) (rest : PDict)
deriving DecidableEq, Repr
end

mutual
def psize : PVal → Nat
  | .vnull | .vbool _ | .vint _ | .vstr _ => 1
  | .vlist l => 1 + psizeL l
  | .vdict d => 1 + psizeD d
def psizeL : PList → Nat
  | .nil => 1
  | .cons v rest => 1 + psize v + psizeL rest
def psizeD : PDict → Nat
  | .nil => 1
  | .cons _ v rest => 1 + psize v + psizeD rest
end

/-- Python dict key access, first occurrence (keys are unique in practice). -/
def PDict.lookup : PDict → String → Option PVal
  | .nil, _ => none
  | .cons k2 v rest, k => if k2 = k then some v else PDict.lookup rest k

/-- Python dict item assignment `d[k] = v`: replace if present, else append. -/
def PDict.set : PDict → String → PVal → PDict
  | .nil, k, v => .cons k v .nil
  | .cons k2 v2 rest, k, v => if k2 = k then .cons k2 v rest else .cons k2 v2 (PDict.set rest k v)

/-- Conjunction of a predicate over all entries of a dict. -/
def PDict.all (p : String → PVal → Bool) : PDict → Bool
  | .nil => true
  | .cons k v rest => p k v && PDict.all p rest

def pdictOf : List (String × PVal) → PDict
  | [] => .nil
  | (k, v) :: rest => .cons k v (pdictOf rest)

def plistOf : List PVal → PList
  | [] => .nil
  | v :: rest => .cons v (plistOf rest)

/-- Python truthiness (`bool(v)`) of an embedded value. -/
def pfalsy : PVal → Bool
  | .vnull => true
  | .vbool b => !b
  | .vint n => decide (n = 0)
  | .vstr s => decide (s = "")
  | .vlist .nil => true
  | .vlist _ => false
  | .vdict .nil => true
  | .vdict _ => false

/-- Key access on a value known to be a dict; `none` otherwise. -/
def dget : PVal → String → Option PVal
  | .vdict d, k => PDict.lookup d k
  | _, _ => none

/-- Navigate a chain of dict keys. -/
def getAt : PVal → List String → Option PVal
  | v, [] => some v
  | v, k :: ks =>
    match dget v k with
    | some w => getAt w ks
    | none => none

/-- The value at a key path exists and is not `None`. -/
def nonNullAtB (v : PVal) (ks : List String) : Bool :=
  match getAt v ks with
  | some .vnull => false
  | some _ => true
  | none => false

/-! ### State Merge/Reducer (`chatfield/merge.py`)

`merge_interviews` diffs the two `_chatfield` dicts with DeepDiff
(`ignore_order=True`) and accepts only monotonic changes.  The diff is
embedded by `deepDiffF`: dicts are compared key-wise, lists as multisets
(added/removed items), `None` has its own type so every change of nullity is
a `type_changes` entry, mirroring DeepDiff's classification.  Diff paths are
kept as key lists; DeepDiff renders `["roles", "alice", "type"]` as
`root['roles']['alice']['type']`, which is the form the source compares
against.  The fuel argument is an embedding artifact; `psize a + psize b`
always suffices, as a diff step consumes at least one level of each side. -/

inductive Cat where
  | typeChanges | valuesChanged | dictAdded | dictRemoved | iterAdded | iterRemoved | exhausted
deriving DecidableEq, Repr

structure Diff where
  path : List String
  cat : Cat
  oldV : Option PVal
  newV : Option PVal
deriving DecidableEq, Repr

/-- Constructor discriminator: two values have the same Python type iff their
constructors agree (`NoneType`, `bool`, `int`, `str`, `list`, `dict`). -/
def ctorIdx : PVal → Nat
  | .vnull => 0 | .vbool _ => 1 | .vint _ => 2 | .vstr _ => 3 | .vlist _ => 4 | .vdict _ => 5

/-- Remove one occurrence of a value from a list, if present. -/
def plistRemoveOne : PList → PVal → Option PList
  | .nil, _ => none
  | .cons x rest, v =>
    if x = v then some rest
    else
      match plistRemoveOne rest v with
      | some rest2 => some (.cons x rest2)
      | none => none

/-- Multiset difference: the elements of the first list left unmatched by the
second (DeepDiff `ignore_order=True` pairing of equal items). -/
def msSub : PList → PList → List PVal
  | .nil, _ => []
  | .cons x xs, ys =>
    match plistRemoveOne ys x with
    | some ys2 => msSub xs ys2
    | none => x :: msSub xs ys

/-- Dict part of the diff, iterating the left dict: common keys recurse via
`rec`, keys missing on the right are `dictionary_item_removed`. -/
def diffDictGo (rec : List String → PVal → PVal → List Diff) (p : List String) :
    PDict → PDict → List Diff
  | .nil, _ => []
  | .cons k va rest, db =>
    (match db.lookup k with
     | some vb => rec (p ++ [k]) va vb
     | none => [⟨p ++ [k], Cat.dictRemoved, some va, none⟩]) ++ diffDictGo rec p rest db

/-- Keys present only on the right dict: `dictionary_item_added`. -/
def dictAddedEntries (p : List String) (da : PDict) : PDict → List Diff
  | .nil => []
  | .cons k vb rest =>
    (if (da.lookup k).isSome then [] else [⟨p ++ [k], Cat.dictAdded, none, some vb⟩])
      ++ dictAddedEntries p da rest

/-- DeepDiff of two embedded values (see section comment). -/
def deepDiffF : Nat → List String → PVal → PVal → List Diff
  | 0, p, _, _ => [⟨p, Cat.exhausted, none, none⟩]
  | fuel + 1, p, a, b =>
    match a, b with
    | .vdict da, .vdict db => diffDictGo (deepDiffF fuel) p da db ++ dictAddedEntries p da db
    | .vlist la, .vlist lb =>
        (msSub la lb).map (fun v => ⟨p, Cat.iterRemoved, some v, none⟩)
        ++ (msSub lb la).map (fun v => ⟨p, Cat.iterAdded, none, some v⟩)
    | x, y =>
        if ctorIdx x = ctorIdx y then
          if x = y then [] else [⟨p, Cat.valuesChanged, some x, some y⟩]
        else [⟨p, Cat.typeChanges, some x, some y⟩]

def deepDiff (a b : PVal) : List Diff := deepDiffF (psize a + psize b) [] a b

/-- Python `delta['old_value'] is None` on a recorded old value. -/
def isNullOpt : Option PVal → Bool
  | some .vnull => true
  | _ => false

def truthyOpt : Option PVal → Bool
  | some v => !(pfalsy v)
  | none => false

def falsyOpt : Option PVal → Bool
  | some v => pfalsy v
  | none => true

/-- Accepted `type_changes` entry: `old_value is None and new_value is not None`. -/
def acceptTC (e : Diff) : Bool :=
  isNullOpt e.oldV && e.newV.isSome && !(isNullOpt e.newV)

/-- DeepDiff's rendering of `root['roles']['alice']['type']`. -/
def alicePath : List String := ["roles", "alice", "type"]

/-- DeepDiff's rendering of `root['roles']['bob']['type']`. -/
def bobPath : List String := ["roles", "bob", "type"]

/-- Accepted `values_changed` entry: null becoming non-null, falsy becoming
truthy, or a default role-type label (`'Agent'` / `'User'`) being overwritten. -/
def acceptVC (e : Diff) : Bool :=
  (isNullOpt e.oldV && e.newV.isSome && !(isNullOpt e.newV)) ||
  (falsyOpt e.oldV && truthyOpt e.newV) ||
  (decide (e.path = alicePath) && decide (e.oldV = some (PVal.vstr "Agent"))) ||
  (decide (e.path = bobPath) && decide (e.oldV = some (PVal.vstr "User")))

/-- Summary of which diff entries `merge_interviews` tolerates: adds are
always fine, removals and unclassified changes never are. -/
def acceptableE (e : Diff) : Bool :=
  match e.cat with
  | .typeChanges => acceptTC e
  | .valuesChanged => acceptVC e
  | .dictAdded => true
  | .iterAdded => true
  | .dictRemoved => false
  | .iterRemoved => false
  | .exhausted => false

/-- `merge_interviews` from `chatfield/merge.py` for two same-typed snapshots
(the subclass-preference short-circuit compares Python class objects, which
have no counterpart here; both snapshots are plain `Interview`s).  The
categories are checked in source order: `type_changes`, then
`values_changed`, then the add categories pass, and any remaining category
(removals) raises. -/
def merge_interviews (a b : PVal) : Except String PVal :=
  if deepDiff a b = [] then .ok a
  else
    match (deepDiff a b).find? (fun e => decide (e.cat = Cat.typeChanges) && !(acceptTC e)) with
    | some _ => .error "Cannot reduce with type changes"
    | none =>
      match (deepDiff a b).find? (fun e => decide (e.cat = Cat.valuesChanged) && !(acceptVC e)) with
      | some _ => .error "Cannot reduce with value changes"
      | none =>
        if (deepDiff a b).any (fun e =>
            decide (e.cat = Cat.dictRemoved) || decide (e.cat = Cat.iterRemoved)
              || decide (e.cat = Cat.exhausted)) then
          .error "Cannot reduce with non-type changes"
        else .ok b

/-- `merge_has_digested` from `chatfield/merge.py`. -/
def merge_has_digested (a b : Bool) : Bool := a || b

/-! ### Update Processor (`Interviewer.process_update_tool`) -/

/-- One of the four `re.sub(r'^choose_..._', 'as_..._', key)` rewrites: the
pattern is anchored, so at most the leading occurrence is replaced. -/
def subPre (key pre rep : String) : String :=
  if strStartsWith key pre then rep ++ String.mk (key.data.drop pre.data.length) else key

/-- The chained legacy-key rewrites of `process_update_tool`. -/
def normalizeCastKey (k : String) : String :=
  subPre (subPre (subPre (subPre k "choose_exactly_one_" "as_one_")
      "choose_zero_or_one_" "as_maybe_")
    "choose_one_or_more_" "as_multi_")
  "choose_zero_or_more_" "as_any_"

def pdictMapKeys (f : String → String) : PDict → PDict
  | .nil => .nil
  | .cons k v rest => .cons (f k) v (pdictMapKeys f rest)

/-- Modelled from the spec: `Interview._get_chat_field` lives in
`chatfield/interview.py`, which is not among the provided sources; per the
spec's data model it returns the mutable per-field record for a declared
field name (and raises for an unknown one, which callers surface as a tool
error). -/
def get_chat_field (iv : PVal) (f : String) : Option PVal :=
  match dget iv "fields" with
  | some fs => dget fs f
  | none => none

/-- One non-null entry of `process_update_tool`'s loop: decode the field
name, fetch the field record, rewrite legacy cast keys, and overwrite the
field's `value` with the whole dict. -/
def applyEntry (iv : PVal) (encoded : String) (vals : PDict) : Except String PVal :=
  match iv with
  | .vdict top =>
    match PDict.lookup top "fields" with
    | some (.vdict fl) =>
      match PDict.lookup fl (decode_field_name encoded) with
      | some (.vdict fdl) =>
        .ok (.vdict (PDict.set top "fields"
          (.vdict (PDict.set fl (decode_field_name encoded)
            (.vdict (PDict.set fdl "value"
              (.vdict (pdictMapKeys normalizeCastKey vals))))))))
      | _ => .error ("unknown field: " ++ decode_field_name encoded)
    | _ => .error "interview has no fields mapping"
  | _ => .error "interview is not a mapping"

/-- `process_update_tool`: iterate the tool-call arguments in order, skipping
null entries; a raise aborts the loop but keeps the mutations already made
(the pair's second component records the raised error, if any). -/
def process_update_tool (iv : PVal) :
    List (String × Option PDict) → PVal × Option String
  | [] => (iv, none)
  | (_, none) :: rest => process_update_tool iv rest
  | (k, some v) :: rest =>
    match applyEntry iv k v with
    | .ok iv2 => process_update_tool iv2 rest
    | .error e => (iv, some e)

/-- The `FieldValue` slot of a field: `interview._chatfield['fields'][f]['value']`. -/
def fieldValueOf (iv : PVal) (f : String) : Option PVal :=
  getAt iv ["fields", f, "value"]

/-- The natural value inside a populated `FieldValue` dict. -/
def natValueOf (iv : PVal) (f : String) : Option PVal :=
  getAt iv ["fields", f, "value", "value"]

/-- A field's value exists and is not `None`. -/
def fieldNonNullB (iv : PVal) (f : String) : Bool :=
  nonNullAtB iv ["fields", f, "value"]

/-! ### Derived completeness predicates

Modelled from the spec: `Interview._enough` and `Interview._done` live in
`chatfield/interview.py`, which is not among the provided sources.  Spec §3:
`enough` holds iff every field that is neither `confidential` nor `conclude`
has a non-null value (vacuously true when there are none); `done` holds iff
`enough` and every field, confidential and conclude included, has a non-null
value (vacuously true for an empty field mapping). -/

/-- Boolean spec flag of a field record (`specs['confidential']` etc.). -/
def specTrue (fd : PVal) (name : String) : Bool :=
  match dget fd "specs" with
  | some sp =>
    match dget sp name with
    | some (.vbool b) => b
    | _ => false
  | none => false

/-- The field's `value` slot holds a non-null value. -/
def fieldValueSet (fd : PVal) : Bool :=
  match dget fd "value" with
  | some .vnull => false
  | some _ => true
  | none => false

/-- Modelled from the spec: `Interview._enough`. -/
def interviewEnough (iv : PVal) : Bool :=
  match dget iv "fields" with
  | some (.vdict fl) =>
    PDict.all (fun _ fd => specTrue fd "confidential" || specTrue fd "conclude" || fieldValueSet fd) fl
  | _ => false

/-- Modelled from the spec: `Interview._done`. -/
def interviewDone (iv : PVal) : Bool :=
  interviewEnough iv &&
    (match dget iv "fields" with
     | some (.vdict fl) => PDict.all (fun _ fd => fieldValueSet fd) fl
     | _ => false)

/-! ### Conversation Orchestrator graph (`Interviewer._setup_graph` and routers)

The LangGraph wiring: `START → initialize → think`, conditional edges out of
`think` (`route_from_think`), `listen → think`, conditional edges out of
`tools` (`route_from_tools`, targets think/digest nodes) and out of both
digest nodes (`route_from_digest`), and `teardown → END`.  A state records
the node just executed (with its updates applied, which is what the routers
see), the two digestion flags, and the two router inputs read from the
conversation: whether `interview._enough` currently holds and whether the
latest message carries tool calls (`tools_condition`). -/

inductive Node where
  | start | init | think | listen | tools | digestConfidentials | digestConcludes
  | teardown | finish
deriving DecidableEq, Repr

structure OState where
  node : Node
  dc : Bool
  dk : Bool
  enough : Bool
  toolcall : Bool
deriving DecidableEq, Repr

def isDigestConfNode (n : Node) : Bool := decide (n = Node.digestConfidentials)

def isDigestConcNode (n : Node) : Bool := decide (n = Node.digestConcludes)

/-- `route_from_tools`: digest each phase the first time `enough` holds. -/
def routeFromTools (s : OState) : Node :=
  if s.enough && !s.dc then .digestConfidentials
  else if s.enough && !s.dk then .digestConcludes
  else .think

/-- `route_from_digest`, used by both digest nodes. -/
def routeFromDigest (s : OState) : Node :=
  if s.enough && !s.dk then .digestConcludes
  else if s.toolcall then .tools
  else .think

/-- All graph edges: the static ones plus the conditional routers. -/
def routeOf (s : OState) : Node :=
  match s.node with
  | .start => .init
  | .init => .think
  | .think => if s.toolcall then .tools else .listen
  | .listen => .think
  | .tools => routeFromTools s
  | .digestConfidentials => routeFromDigest s
  | .digestConcludes => routeFromDigest s
  | .teardown => .finish
  | .finish => .finish

/-- One superstep of the graph: the next occupied node follows an edge (or is
`teardown`, reachable any time through the caller's `end()` jump), and each
digestion flag is merged through the `merge_has_digested` reducer — a digest
node always returns its flag as `True`, every other node leaves it alone.
`enough` and `toolcall` are unconstrained inputs from the conversation. -/
def stepB (s s2 : OState) : Bool :=
  (decide (s2.node = routeOf s) || decide (s2.node = Node.teardown)) &&
  decide (s2.dc = merge_has_digested s.dc (isDigestConfNode s2.node)) &&
  decide (s2.dk = merge_has_digested s.dk (isDigestConcNode s2.node))

@[reducible] def Step (s s2 : OState) : Prop := stepB s s2 = true

/-- A concrete run used to exhibit the step relation: initialize, think, a
tool call, both digest phases, then a listen/think conversation loop. -/
def wTrace : Nat → OState
  | 0 => ⟨.init, false, false, true, true⟩
  | 1 => ⟨.think, false, false, true, true⟩
  | 2 => ⟨.tools, false, false, true, true⟩
  | 3 => ⟨.digestConfidentials, true, false, true, false⟩
  | 4 => ⟨.digestConcludes, true, true, true, false⟩
  | n + 5 => if n % 2 = 0 then ⟨.think, true, true, true, false⟩ else ⟨.listen, true, true, true, false⟩

/-! ### Endpoint Security Checker (`Interviewer._detect_dangerous_endpoint`) -/

inductive SecurityMode where
  | strict | warn | disabled
deriving DecidableEq, Repr

/-- `Interviewer.DANGEROUS_ENDPOINTS`. -/
def DANGEROUS_ENDPOINTS : List String := ["api.openai.com", "api.anthropic.com"]

def isAlphaChar (c : Char) : Bool := decide (('a' ≤ c ∧ c ≤ 'z') ∨ ('A' ≤ c ∧ c ≤ 'Z'))

def isSchemeChar (c : Char) : Bool :=
  decide (('a' ≤ c ∧ c ≤ 'z') ∨ ('A' ≤ c ∧ c ≤ 'Z') ∨ ('0' ≤ c ∧ c ≤ '9')
    ∨ c = '+' ∨ c = '-' ∨ c = '.')

/-- Strip a leading `scheme:` as `urllib.parse.urlparse` does: the part
before the first colon must be nonempty, start with a letter, and consist of
scheme characters. -/
def splitScheme (cs : List Char) : List Char :=
  match cs.takeWhile (fun c => decide (c ≠ ':')) with
  | [] => cs
  | c :: pre2 =>
    if isAlphaChar c && (c :: pre2).all isSchemeChar && decide ((c :: pre2).length < cs.length)
    then cs.drop ((c :: pre2).length + 1)
    else cs

/-- The suffix after the last occurrence of a character (whole list if absent). -/
def afterLastChar (sep : Char) (l : List Char) : List Char :=
  (l.reverse.takeWhile (fun c => decide (c ≠ sep))).reverse

/-- `urlparse(url).hostname`: a host exists only when (after any scheme) the
string continues with `//`; the netloc runs to the next `/`, `?` or `#`;
userinfo before the last `@` and a `:port` suffix are dropped; the result is
lowercased; an empty host is `None`. -/
def hostnameOf (url : String) : Option String :=
  match splitScheme url.data with
  | '/' :: '/' :: rest =>
    let netloc := rest.takeWhile (fun c => decide (c ≠ '/' ∧ c ≠ '?' ∧ c ≠ '#'))
    let hostport := afterLastChar '@' netloc
    let host := hostport.takeWhile (fun c => decide (c ≠ ':'))
    if host = [] then none else some (String.mk (host.map Char.toLower))
  | _ => none

/-- The `on_dangerous_endpoint` closure: `disabled` logs, `warn` emits a
non-fatal warning, `strict` raises. -/
def onDangerousEndpoint (mode : SecurityMode) (message : String) : Except String Unit :=
  match mode with
  | .disabled => .ok ()
  | .warn => .ok ()
  | .strict => .error ("SECURITY ERROR: " ++ message)

/-- `_detect_dangerous_endpoint`: no configured URL is itself flagged; a URL
without a hostname (relative, or the falsy empty string which skips the parse)
returns safely; a hostname on the denylist is flagged; anything else is safe. -/
def detect_dangerous_endpoint (base_url : Option String) (mode : SecurityMode) :
    Except String Unit :=
  let hostname : Option String :=
    match base_url with
    | some u => if u = "" then none else hostnameOf u
    | none => none
  match base_url with
  | none => onDangerousEndpoint mode "No explicit endpoint configured"
  | some _ =>
    match hostname with
    | none => .ok ()
    | some h =>
      if DANGEROUS_ENDPOINTS.contains h then
        onDangerousEndpoint mode ("Detected official API endpoint: " ++ h)
      else .ok ()

/-- The failure behavior of `Interviewer.__init__`: when no chat-model object
is passed, the model identifier (defaulting to `openai:gpt-4o`) must carry
the `openai:` prefix; then the endpoint security check runs (defaulting to
`disabled`).  The interview definition is stored untouched — in particular
its cast declarations are never inspected at construction. -/
def interviewer_init (_interview : PVal) (llmProvided : Bool) (llm_id : Option String)
    (base_url : Option String) (endpoint_security : Option SecurityMode) :
    Except String Unit :=
  if llmProvided then
    detect_dangerous_endpoint base_url (endpoint_security.getD .disabled)
  else
    let lid := llm_id.getD "openai:gpt-4o"
    if !(strStartsWith lid "openai:") then
      .error ("LLM ID must start with openai:, got " ++ lid)
    else
      detect_dangerous_endpoint base_url (endpoint_security.getD .disabled)

/-! ### Cast/Schema Builder (`Interviewer.mk_casts_definitions`) -/

/-- A declared cast: the `cast_info` dict
(`type`, `prompt`, and for choice casts `choices` / `null` / `multi`). -/
structure CastInfo where
  type : String
  prompt : String
  choices : List String
  null : Bool
  multi : Bool
deriving DecidableEq, Repr

/-- A compiled cast slot: resolved primitive kind, final prompt text, and for
choice casts the `(choices, min_results, max_results, nullable)` cardinality. -/
structure CastDef where
  kind : String
  prompt : String
  choice : Option (List String × Nat × Nat × Bool)
deriving DecidableEq, Repr

/-- The keys of `ok_primitive_types`. -/
def okPrimitiveKinds : List String :=
  ["int", "float", "str", "bool", "list", "set", "dict", "choice"]

def afterLastUnderscore (l : List Char) : List Char :=
  (l.reverse.takeWhile (fun c => decide (c ≠ '_'))).reverse

/-- `re.sub(r'^choose_.*_', '', cast_name)`: the greedy `.*` makes a match
strip everything through the last underscore; with no underscore after the
`choose_` prefix there is no match and the name is unchanged. -/
def chooseShortName (castName : String) : String :=
  if strStartsWith castName "choose_" then
    let rest := castName.data.drop 7
    if rest.contains '_' then String.mk (afterLastUnderscore rest) else castName
  else castName

/-- Python `str.format(name=...)` on the prompt: replace `\x7bname\x7d`
placeholders (the prompts built by the builder contain no other fields). -/
def formatNamePh (prompt name : String) : String :=
  prompt.replace "\x7bname\x7d" name

/-- One iteration of `mk_casts_definitions`: unknown primitive kinds raise;
choice casts compute the shortened name, the formatted prompt and the
`min_results` / `max_results` cardinality from `null` / `multi`. -/
def mkCastDef (castName : String) (info : CastInfo) : Except String CastDef :=
  if !(okPrimitiveKinds.contains info.type) then
    .error ("Cast " ++ castName ++ " bad type; must be a known primitive kind")
  else if info.type = "choice" then
    let shortName := chooseShortName castName
    let prompt2 := formatNamePh info.prompt shortName
    let minResults := if info.null then 0 else 1
    let maxResults := if info.multi then info.choices.length else 1
    .ok (CastDef.mk "choice" prompt2 (some (info.choices, minResults, maxResults, info.null)))
  else
    .ok (CastDef.mk info.type info.prompt none)

/-- `mk_casts_definitions` over a field's declared casts, in order. -/
def mk_casts_definitions : List (String × CastInfo) → Except String (List (String × CastDef))
  | [] => .ok []
  | (name, info) :: rest =>
    match mkCastDef name info with
    | .error e => .error e
    | .ok d =>
      match mk_casts_definitions rest with
      | .error e => .error e
      | .ok ds => .ok ((name, d) :: ds)

/-! ### Caller control surface (`Interviewer.go` and the `listen` node) -/

inductive Msg where
  | human (content : String)
  | ai (content : String) (hasToolCalls : Bool)
  | system (content : String)
  | toolResult (content : String)
deriving DecidableEq, Repr

inductive GraphInput where
  | fresh (messages : List Msg)
  | resume (userInput : Option String)
deriving DecidableEq, Repr

/-- The input-preparation step of `go`: a conversation with prior messages is
resumed with `Command(resume={'user_input': user_input})`; a new conversation
starts fresh, seeding the supplied input (if any) as the opening user
message.  The source performs no validation of `user_input` here, so this
step cannot raise. -/
def go_prepare (hasPriorMessages : Bool) (user_input : Option String) :
    Except String GraphInput :=
  if hasPriorMessages then .ok (.resume user_input)
  else
    match user_input with
    | some s => .ok (.fresh [.human s])
    | none => .ok (.fresh [])

/-- Resumption inside `listen`: `HumanMessage(content=update['user_input'])`;
a null content fails message validation and raises. -/
def listen_resume (update_user_input : Option String) : Except String Msg :=
  match update_user_input with
  | some s => .ok (.human s)
  | none => .error "HumanMessage content must be a string"

/-- The suspension side of `listen`: the last message must be an `AIMessage`,
whose stripped content becomes the value yielded to the caller. -/
def listen_feedback (messages : List Msg) : Except String String :=
  match messages.getLast? with
  | some (.ai content _) => .ok content.trim
  | _ => .error "Expected last message to be an AIMessage"

/-- The result-collection step of `go`: exactly one interrupt must have been
produced; its payload is returned to the caller. -/
def go_collect (interrupts : List String) : Except String String :=
  match interrupts with
  | [] => .error "ERROR: No interrupts received"
  | [i] => .ok i
  | _ => .error "Unexpected scenario multiple interrupts"

/-! ### Concrete sample states used by witnesses and counterexamples -/

/-- Builder-shaped specs dict of a plain field (no rules, not confidential). -/
def specsNormal : PVal :=
  .vdict (pdictOf [("must", .vlist .nil), ("reject", .vlist .nil), ("hint", .vlist .nil),
    ("confidential", .vbool false), ("conclude", .vbool false)])

/-- Builder-shaped field record with the given description and value slot. -/
def mkFieldPV (desc : String) (value : PVal) : PVal :=
  .vdict (pdictOf [("desc", .vstr desc), ("specs", specsNormal),
    ("casts", .vdict .nil), ("value", value)])

/-- Default roles as `ChatfieldBuilder.build` fills them in. -/
def rolesDefault : PVal :=
  .vdict (pdictOf
    [("alice", .vdict (pdictOf [("type", .vstr "Agent"), ("traits", .vlist .nil)])),
     ("bob", .vdict (pdictOf [("type", .vstr "User"), ("traits", .vlist .nil)]))])

/-- Builder-shaped `_chatfield` dict with the given fields. -/
def mkInterviewPV (fields : PDict) : PVal :=
  .vdict (pdictOf [("type", .vstr "TestInterview"), ("desc", .vstr ""),
    ("roles", rolesDefault), ("fields", .vdict fields)])

/-- An interview with an empty field mapping (`chatfield().build()`). -/
def emptyInterview : PVal := mkInterviewPV .nil

/-- Snapshot with the single field `name` still null. -/
def ivNameNull : PVal := mkInterviewPV (pdictOf [("name", mkFieldPV "Your name" .vnull)])

/-- Snapshot with the single field `name` populated with `Alice`. -/
def ivNameAlice : PVal :=
  mkInterviewPV (pdictOf [("name", mkFieldPV "Your name" (.vdict (pdictOf [("value", .vstr "Alice")])))])

/-- Snapshot whose `name` natural value is the empty string (non-null but falsy). -/
def ivNameEmptyStr : PVal :=
  mkInterviewPV (pdictOf [("name", mkFieldPV "Your name" (.vdict (pdictOf [("value", .vstr "")])))])

/-- Snapshot whose `name` natural value is `Bob`. -/
def ivNameBob : PVal :=
  mkInterviewPV (pdictOf [("name", mkFieldPV "Your name" (.vdict (pdictOf [("value", .vstr "Bob")])))])

/-- A cast declaration whose primitive kind is unknown to the schema builder. -/
def badCastList : List (String × CastInfo) :=
  [("as_weird", CastInfo.mk "quaternion" "Parse as quaternion" [] false false)]

/-- An interview whose single field carries the malformed cast declaration. -/
def ivBadCast : PVal :=
  mkInterviewPV (pdictOf [("q", .vdict (pdictOf
    [("desc", .vstr "q"), ("specs", specsNormal),
     ("casts", .vdict (pdictOf [("as_weird", .vdict (pdictOf
        [("type", .vstr "quaternion"), ("prompt", .vstr "Parse as quaternion")]))])),
     ("value", .vnull)]))])

theorem hexDigitChar_safe (n : Nat) : isSafeChar (hexDigitChar n) = true := by
  unfold hexDigitChar
  rcases Nat.lt_or_ge n 16 with h | h
  · interval_cases n <;> decide
  · rw [List.getD_eq_default _ _ (by simpa using h)]
    decide

theorem hexCharsF_safe (fuel n : Nat) (x : Char) (hx : x ∈ hexCharsF fuel n) :
    isSafeChar x = true := by
  induction fuel generalizing n with
  | zero => simp [hexCharsF] at hx
  | succ fuel ih =>
    simp only [hexCharsF] at hx
    split at hx
    · simp at hx
    · rcases List.mem_append.mp hx with h | h
      · exact ih _ h
      · simp only [List.mem_singleton] at h
        subst h
        exact hexDigitChar_safe _

theorem toHexMin2_safe (n : Nat) (x : Char) (hx : x ∈ toHexMin2 n) :
    isSafeChar x = true := by
  unfold toHexMin2 at hx
  split at hx
  · rcases List.mem_cons.mp hx with h | h
    · subst h; decide
    · simp only [List.mem_singleton] at h; subst h; decide
  · split at hx
    · rcases List.mem_cons.mp hx with h | h
      · subst h; decide
      · exact hexCharsF_safe _ _ _ h
    · exact hexCharsF_safe _ _ _ hx

theorem encodeCharL_safe (c : Char) (x : Char) (hx : x ∈ encodeCharL c) :
    isSafeChar x = true := by
  unfold encodeCharL at hx
  split at hx
  · rename_i h
    simp only [List.mem_singleton] at hx
    subst hx; exact h
  · simp only [List.mem_cons] at hx
    rcases hx with h | h | h | h | h
    · subst h; decide
    · subst h; decide
    · subst h; decide
    · subst h; decide
    · rcases List.mem_append.mp h with h2 | h2
      · exact toHexMin2_safe _ _ h2
      · simp only [List.mem_singleton] at h2; subst h2; decide

theorem encodeL_safe (cs : List Char) (x : Char) (hx : x ∈ encodeL cs) :
    isSafeChar x = true := by
  induction cs with
  | nil => simp [encodeL] at hx
  | cons c rest ih =>
    simp only [encodeL] at hx
    rcases List.mem_append.mp hx with h | h
    · exact encodeCharL_safe _ _ h
    · exact ih h

theorem keyword_not_field_prefixed :
    pythonKeywords.all (fun k => !(strStartsWith k "field_")) = true := by decide

theorem startsWith_field_not_keyword (s : String)
    (h : strStartsWith s "field_" = true) : isPyKeyword s = false := by
  by_contra hk
  have hmem : s ∈ pythonKeywords := by
    have := Bool.not_eq_false (isPyKeyword s) |>.mp hk
    exact of_decide_eq_true this
  have := List.all_eq_true.mp keyword_not_field_prefixed s hmem
  simp [h] at this

/-- C10: for every input string, `encode_field_name` returns a string composed
only of ASCII letters, digits and underscores that is a valid, non-keyword
Python identifier; the output is either the input itself or begins with the
escape prefix `field_`. -/
theorem C10_encode_safe_identifier (s : String) :
    isSafePyIdentifier (encode_field_name s) = true ∧
    isPyKeyword (encode_field_name s) = false ∧
    (encode_field_name s = s ∨ strStartsWith (encode_field_name s) "field_" = true) := by
  by_cases h : fastPathOk s = true
  · have he : encode_field_name s = s := by simp [encode_field_name, h]
    rw [he]
    unfold fastPathOk at h
    refine ⟨?_, ?_, Or.inl rfl⟩
    · unfold isSafePyIdentifier
      rcases hd : s.data with _ | ⟨c, rest⟩
      · rw [hd] at h; simp at h
      · rw [hd] at h
        simp only [Bool.and_eq_true] at h
        simp [h.1.1.1, h.1.1.2]
    · rcases hd : s.data with _ | ⟨c, rest⟩
      · rw [hd] at h; simp at h
      · rw [hd] at h
        simp only [Bool.and_eq_true, Bool.not_eq_true'] at h
        exact h.1.2
  · have he : encode_field_name s = String.mk (fieldPrefixL ++ encodeL s.data) := by
      simp [encode_field_name, h]
    rw [he]
    have hdata : (String.mk (fieldPrefixL ++ encodeL s.data)).data
        = fieldPrefixL ++ encodeL s.data := rfl
    have hpre : strStartsWith (String.mk (fieldPrefixL ++ encodeL s.data)) "field_" = true := by
      unfold strStartsWith
      rw [hdata]
      have : ("field_" : String).data = fieldPrefixL := rfl
      rw [this]
      exact List.isPrefixOf_iff_prefix.mpr ⟨encodeL s.data, rfl⟩
    refine ⟨?_, startsWith_field_not_keyword _ hpre, Or.inr hpre⟩
    unfold isSafePyIdentifier
    rw [hdata]
    simp only [fieldPrefixL, List.cons_append, List.nil_append]
    have hall : (('f' :: 'i' :: 'e' :: 'l' :: 'd' :: '_' :: encodeL s.data).all isSafeChar) = true := by
      simp only [List.all_cons, Bool.and_eq_true]
      refine ⟨by decide, by decide, by decide, by decide, by decide, by decide, ?_⟩
      rw [List.all_eq_true]
      intro x hx
      exact encodeL_safe _ _ hx
    simp [hall]

/-- C1: the codec round-trip and injectivity contract fails on the code:
`decode(encode('field_a_PCT41_b'))` is `'field_aAb'`, and the two distinct
names `'..'` and `'_PCT2E_.'` encode to the same identifier. -/
theorem C1_codec_bug :
    decode_field_name (encode_field_name "field_a_PCT41_b") = "field_aAb" ∧
    "field_aAb" ≠ "field_a_PCT41_b" ∧
    encode_field_name ".." = encode_field_name "_PCT2E_." ∧
    ".." ≠ "_PCT2E_." := by
  exact ⟨by decide, by decide, by decide, by decide⟩

/-! ### Claim C5: endpoint security -/

theorem error_of_isOk_false {α : Type} (x : Except String α) (h : x.isOk = false) :
    ∃ e, x = .error e := by
  cases x with
  | error e => exact ⟨e, rfl⟩
  | ok v => simp [Except.isOk, Except.toBool] at h

theorem hostnameOf_empty : hostnameOf "" = none := by decide

/-- C5: a configured base URL whose hostname is on the denylist fails
construction under `strict` mode before any model call (the check is part of
`__init__` and never contacts the network), never throws under `disabled`
mode, and a URL without a hostname is safe in every mode. -/
theorem C5_endpoint_security (u host : String)
    (h1 : hostnameOf u = some host) (h2 : host ∈ DANGEROUS_ENDPOINTS) :
    (∃ e, detect_dangerous_endpoint (some u) SecurityMode.strict = .error e) ∧
    detect_dangerous_endpoint (some u) SecurityMode.disabled = .ok () ∧
    (∀ v mode, hostnameOf v = none → detect_dangerous_endpoint (some v) mode = .ok ()) := by
  have hu : u ≠ "" := by
    intro he
    rw [he, hostnameOf_empty] at h1
    exact Option.noConfusion h1
  have hcon : DANGEROUS_ENDPOINTS.contains host = true := by simpa using h2
  refine ⟨⟨"SECURITY ERROR: " ++ ("Detected official API endpoint: " ++ host), ?_⟩, ?_, ?_⟩
  · simp [detect_dangerous_endpoint, hu, h1, hcon, h2, onDangerousEndpoint]
  · simp [detect_dangerous_endpoint, hu, h1, hcon, h2, onDangerousEndpoint]
  · intro v mode hv
    by_cases hv0 : v = ""
    · subst hv0
      simp [detect_dangerous_endpoint]
    · simp [detect_dangerous_endpoint, hv0, hv]

theorem C5_endpoint_security_witness :
    (∃ e, detect_dangerous_endpoint (some "https://api.openai.com/v1")
        SecurityMode.strict = .error e) ∧
    detect_dangerous_endpoint (some "https://api.openai.com/v1") SecurityMode.disabled = .ok () ∧
    detect_dangerous_endpoint (some "/v1/relative") SecurityMode.strict = .ok () := by
  have h := C5_endpoint_security "https://api.openai.com/v1" "api.openai.com"
    (by decide) (by decide)
  exact ⟨h.1, h.2.1, h.2.2 "/v1/relative" SecurityMode.strict (by decide)⟩

/-! ### Claim C7: `go` argument handling -/

/-- C7 counterexample: `go` does not throw when given input on the very first
call of a conversation; the input simply becomes the opening user message of
a fresh run. -/
theorem C7_first_call_with_input_ok :
    go_prepare false (some "hello") = .ok (.fresh [.human "hello"]) := by decide

/-- C7 amended: `go` itself validates nothing — with input on the very first
call it proceeds (the input seeds the transcript); a resumed call forwards
the input to the suspended `listen`, where a null input fails message
construction and raises; the value `go` returns is the single interrupt
payload (the assistant's message), and a run with zero or multiple
suspensions raises. -/
theorem C7_go_behavior :
    (∀ s, go_prepare false (some s) = .ok (.fresh [.human s])) ∧
    go_prepare false none = .ok (.fresh []) ∧
    (∀ u, go_prepare true u = .ok (.resume u)) ∧
    (∃ e, listen_resume none = .error e) ∧
    (∀ s, listen_resume (some s) = .ok (.human s)) ∧
    (∀ pre s b, listen_feedback (pre ++ [.ai s b]) = .ok s.trim) ∧
    (∀ m, go_collect [m] = .ok m) ∧
    (∃ e, go_collect [] = .error e) ∧
    (∀ i j l, ∃ e, go_collect (i :: j :: l) = .error e) := by
  refine ⟨fun s => rfl, rfl, fun u => rfl, ⟨_, rfl⟩, fun s => rfl, ?_, fun m => rfl, ⟨_, rfl⟩, ?_⟩
  · intro pre s b
    simp [listen_feedback]
  · intro i j l
    cases l with
    | nil => exact ⟨_, rfl⟩
    | cons x xs => exact ⟨_, rfl⟩

/-! ### Claim C8: configuration error timing -/

theorem mk_casts_ok_kinds (casts : List (String × CastInfo)) (l : List (String × CastDef))
    (h : mk_casts_definitions casts = .ok l) :
    ∀ c ∈ casts, okPrimitiveKinds.contains c.2.type = true := by
  induction casts generalizing l with
  | nil => intro c hc; simp at hc
  | cons hd tl ih =>
    intro c hc
    obtain ⟨name, info⟩ := hd
    simp only [mk_casts_definitions] at h
    rcases hmk : mkCastDef name info with e | d
    · rw [hmk] at h; exact Except.noConfusion h
    · rw [hmk] at h
      rcases hrest : mk_casts_definitions tl with e | ds
      · rw [hrest] at h; exact Except.noConfusion h
      · rw [hrest] at h
        rcases List.mem_cons.mp hc with hc1 | hc1
        · subst hc1
          by_cases hk : info.type ∈ okPrimitiveKinds
          · simpa using hk
          · have hcf : okPrimitiveKinds.contains info.type = false := by simpa using hk
            unfold mkCastDef at hmk
            rw [hcf] at hmk
            simp at hmk
        · exact ih ds hrest c hc1

/-- C8 counterexample: an interview declaring a cast with an unknown primitive
kind still constructs successfully — `__init__` never inspects casts — while
the schema builder, which runs while binding tools for a turn
(mid-conversation), rejects the same declaration. -/
theorem C8_cast_error_not_at_construction :
    interviewer_init ivBadCast false none none none = .ok () ∧
    (mk_casts_definitions badCastList).isOk = false := ⟨by decide, by decide⟩

/-- C8 amended: an invalid model identifier prefix does fail synchronously at
construction; a malformed cast declaration (unknown primitive kind) is
instead rejected by `mk_casts_definitions`, which runs while building a
turn's tool schema during the conversation, not at construction/build time. -/
theorem C8_config_error_timing (lid : String) (hup : strStartsWith lid "openai:" = false)
    (casts : List (String × CastInfo)) (c : String × CastInfo) (hc : c ∈ casts)
    (ht : c.2.type ∉ okPrimitiveKinds)
    (iv : PVal) (bu : Option String) (es : Option SecurityMode) :
    (∃ e, interviewer_init iv false (some lid) bu es = .error e) ∧
    (∃ e, mk_casts_definitions casts = .error e) := by
  constructor
  · exact ⟨"LLM ID must start with openai:, got " ++ lid, by simp [interviewer_init, hup]⟩
  · rcases h : mk_casts_definitions casts with e | l
    · exact ⟨e, rfl⟩
    · have hcn := mk_casts_ok_kinds casts l h c hc
      have : c.2.type ∈ okPrimitiveKinds := by simpa using hcn
      exact absurd this ht

theorem C8_config_error_timing_witness :
    (∃ e, interviewer_init emptyInterview false (some "gpt-4o") none none = .error e) ∧
    (∃ e, mk_casts_definitions badCastList = .error e) :=
  C8_config_error_timing "gpt-4o" (by decide) badCastList
    ("as_weird", CastInfo.mk "quaternion" "Parse as quaternion" [] false false)
    (by decide) (by decide) emptyInterview none none

/-! ### Claim C2: teardown is never reached implicitly -/

/-- C2 counterexample: for the empty interview definition, `enough` and
`done` hold immediately, yet the very first `go(null)` run proceeds
`initialize → think` and from `think` only to `listen` or `tools` — the
routers never select `teardown`. -/
theorem C2_first_go_not_teardown :
    interviewEnough emptyInterview = true ∧
    interviewDone emptyInterview = true ∧
    routeOf ⟨Node.init, false, false, true, false⟩ = Node.think ∧
    routeOf ⟨Node.think, false, false, true, false⟩ = Node.listen ∧
    routeOf ⟨Node.think, false, false, true, true⟩ = Node.tools ∧
    Node.listen ≠ Node.teardown ∧ Node.tools ≠ Node.teardown := by decide

/-- C2 amended: `teardown` is never the target of any graph router — it is
reachable only through the caller's explicit `end()` jump — so `done`
becoming true never routes a turn to teardown; for the empty interview
`enough` and `done` do hold immediately after initialize, and the first run
suspends at `listen` (or processes tool calls) instead of tearing down. -/
theorem C2_teardown_only_explicit :
    (∀ s : OState, routeOf s ≠ Node.teardown) ∧
    interviewEnough emptyInterview = true ∧
    interviewDone emptyInterview = true ∧
    (∀ s : OState, s.node = Node.init → routeOf s = Node.think) ∧
    (∀ s : OState, s.node = Node.think →
      routeOf s = Node.tools ∨ routeOf s = Node.listen) ∧
    (∀ s : OState, s.node = Node.teardown → routeOf s = Node.finish) := by
  refine ⟨?_, by decide, by decide, ?_, ?_, ?_⟩
  · intro s
    rcases s with ⟨node, dc, dk, enough, toolcall⟩
    cases node <;>
      simp [routeOf, routeFromTools, routeFromDigest] <;>
      split <;> simp_all <;> split <;> simp_all
  · intro s hs
    rcases s with ⟨node, dc, dk, enough, toolcall⟩
    simp only at hs
    subst hs
    rfl
  · intro s hs
    rcases s with ⟨node, dc, dk, enough, toolcall⟩
    simp only at hs
    subst hs
    by_cases ht : toolcall = true <;> simp [routeOf, ht]
  · intro s hs
    rcases s with ⟨node, dc, dk, enough, toolcall⟩
    simp only at hs
    subst hs
    rfl

theorem C2_teardown_only_explicit_witness :
    routeOf ⟨Node.teardown, true, true, true, false⟩ = Node.finish ∧
    routeOf ⟨Node.tools, false, false, true, false⟩ ≠ Node.teardown :=
  ⟨C2_teardown_only_explicit.2.2.2.2.2 _ rfl, C2_teardown_only_explicit.1 _⟩

/-! ### Claims C6 and C9: the Update Processor -/

theorem pdict_lookup_set_self (d : PDict) (k : String) (v : PVal) :
    (PDict.set d k v).lookup k = some v := by
  match d with
  | .nil => simp [PDict.set, PDict.lookup]
  | .cons k2 v2 rest =>
    by_cases h : k2 = k
    · simp [PDict.set, PDict.lookup, h]
    · simp [PDict.set, PDict.lookup, h, pdict_lookup_set_self rest k v]

theorem pdict_lookup_set_other (d : PDict) (k g : String) (v : PVal) (h : g ≠ k) :
    (PDict.set d k v).lookup g = d.lookup g := by
  have hkg : ¬(k = g) := fun he => h he.symm
  match d with
  | .nil => simp [PDict.set, PDict.lookup, hkg]
  | .cons k2 v2 rest =>
    by_cases h2 : k2 = k
    · have hk2g : ¬(k2 = g) := by rw [h2]; exact hkg
      simp [PDict.set, PDict.lookup, h2, hk2g, hkg]
    · simp [PDict.set, PDict.lookup, h2, pdict_lookup_set_other rest k g v h]

/-- Shape of a successful `applyEntry`: the interview is a dict, the field
exists, and the result overwrites exactly the field's `value` slot. -/
theorem applyEntry_ok_shape (iv : PVal) (k : String) (v : PDict) (iv2 : PVal)
    (h : applyEntry iv k v = .ok iv2) :
    ∃ top fl fdl,
      iv = .vdict top ∧
      PDict.lookup top "fields" = some (.vdict fl) ∧
      PDict.lookup fl (decode_field_name k) = some (.vdict fdl) ∧
      iv2 = .vdict (PDict.set top "fields"
        (.vdict (PDict.set fl (decode_field_name k)
          (.vdict (PDict.set fdl "value"
            (.vdict (pdictMapKeys normalizeCastKey v))))))) := by
  unfold applyEntry at h
  split at h
  · split at h
    · split at h
      · exact ⟨_, _, _, rfl, by assumption, by assumption,
          (Except.ok.injEq _ _ |>.mp h).symm⟩
      · exact Except.noConfusion h
    · exact Except.noConfusion h
  · exact Except.noConfusion h

theorem applyEntry_fieldValue (iv : PVal) (k : String) (v : PDict) (iv2 : PVal)
    (h : applyEntry iv k v = .ok iv2) :
    fieldValueOf iv2 (decode_field_name k)
      = some (.vdict (pdictMapKeys normalizeCastKey v)) := by
  obtain ⟨top, fl, fdl, hiv, hfl, hfd, hiv2⟩ := applyEntry_ok_shape iv k v iv2 h
  subst hiv2
  simp [fieldValueOf, getAt, dget, pdict_lookup_set_self]

theorem applyEntry_other_field (iv : PVal) (k : String) (v : PDict) (iv2 : PVal)
    (h : applyEntry iv k v = .ok iv2) (g : String) (hg : g ≠ decode_field_name k) :
    fieldValueOf iv2 g = fieldValueOf iv g := by
  obtain ⟨top, fl, fdl, hiv, hfl, hfd, hiv2⟩ := applyEntry_ok_shape iv k v iv2 h
  subst hiv2
  subst hiv
  simp [fieldValueOf, getAt, dget, pdict_lookup_set_self, hfl,
    pdict_lookup_set_other _ _ _ _ hg]

theorem strStartsWith_append (pre n : String) : strStartsWith (pre ++ n) pre = true := by
  unfold strStartsWith
  rw [String.data_append]
  exact List.isPrefixOf_iff_prefix.mpr ⟨n.data, rfl⟩

theorem subPre_append (pre rep n : String) : subPre (pre ++ n) pre rep = rep ++ n := by
  unfold subPre
  rw [strStartsWith_append]
  simp only [if_true]
  rw [String.data_append, List.drop_left]

theorem subPre_noMatch (key pre rep : String) (h : strStartsWith key pre = false) :
    subPre key pre rep = key := by
  unfold subPre
  rw [h]
  rfl

theorem ssw_append_false (s pre n : String)
    (h : pre.data.isPrefixOf (s.data ++ n.data) = false) :
    strStartsWith (s ++ n) pre = false := by
  unfold strStartsWith
  rw [String.data_append]
  exact h

theorem normalizeCastKey_exactly_one (n : String) :
    normalizeCastKey ("choose_exactly_one_" ++ n) = "as_one_" ++ n := by
  have h1 : subPre ("choose_exactly_one_" ++ n) "choose_exactly_one_" "as_one_"
      = "as_one_" ++ n := subPre_append _ _ _
  have h2 : subPre ("as_one_" ++ n) "choose_zero_or_one_" "as_maybe_" = "as_one_" ++ n :=
    subPre_noMatch _ _ _ (ssw_append_false _ _ _ (by rfl))
  have h3 : subPre ("as_one_" ++ n) "choose_one_or_more_" "as_multi_" = "as_one_" ++ n :=
    subPre_noMatch _ _ _ (ssw_append_false _ _ _ (by rfl))
  have h4 : subPre ("as_one_" ++ n) "choose_zero_or_more_" "as_any_" = "as_one_" ++ n :=
    subPre_noMatch _ _ _ (ssw_append_false _ _ _ (by rfl))
  unfold normalizeCastKey
  rw [h1, h2, h3, h4]

theorem normalizeCastKey_zero_or_one (n : String) :
    normalizeCastKey ("choose_zero_or_one_" ++ n) = "as_maybe_" ++ n := by
  have h1 : subPre ("choose_zero_or_one_" ++ n) "choose_exactly_one_" "as_one_"
      = "choose_zero_or_one_" ++ n :=
    subPre_noMatch _ _ _ (ssw_append_false _ _ _ (by rfl))
  have h2 : subPre ("choose_zero_or_one_" ++ n) "choose_zero_or_one_" "as_maybe_"
      = "as_maybe_" ++ n := subPre_append _ _ _
  have h3 : subPre ("as_maybe_" ++ n) "choose_one_or_more_" "as_multi_" = "as_maybe_" ++ n :=
    subPre_noMatch _ _ _ (ssw_append_false _ _ _ (by rfl))
  have h4 : subPre ("as_maybe_" ++ n) "choose_zero_or_more_" "as_any_" = "as_maybe_" ++ n :=
    subPre_noMatch _ _ _ (ssw_append_false _ _ _ (by rfl))
  unfold normalizeCastKey
  rw [h1, h2, h3, h4]

theorem normalizeCastKey_one_or_more (n : String) :
    normalizeCastKey ("choose_one_or_more_" ++ n) = "as_multi_" ++ n := by
  have h1 : subPre ("choose_one_or_more_" ++ n) "choose_exactly_one_" "as_one_"
      = "choose_one_or_more_" ++ n :=
    subPre_noMatch _ _ _ (ssw_append_false _ _ _ (by rfl))
  have h2 : subPre ("choose_one_or_more_" ++ n) "choose_zero_or_one_" "as_maybe_"
      = "choose_one_or_more_" ++ n :=
    subPre_noMatch _ _ _ (ssw_append_false _ _ _ (by rfl))
  have h3 : subPre ("choose_one_or_more_" ++ n) "choose_one_or_more_" "as_multi_"
      = "as_multi_" ++ n := subPre_append _ _ _
  have h4 : subPre ("as_multi_" ++ n) "choose_zero_or_more_" "as_any_" = "as_multi_" ++ n :=
    subPre_noMatch _ _ _ (ssw_append_false _ _ _ (by rfl))
  unfold normalizeCastKey
  rw [h1, h2, h3, h4]

theorem normalizeCastKey_zero_or_more (n : String) :
    normalizeCastKey ("choose_zero_or_more_" ++ n) = "as_any_" ++ n := by
  have h1 : subPre ("choose_zero_or_more_" ++ n) "choose_exactly_one_" "as_one_"
      = "choose_zero_or_more_" ++ n :=
    subPre_noMatch _ _ _ (ssw_append_false _ _ _ (by rfl))
  have h2 : subPre ("choose_zero_or_more_" ++ n) "choose_zero_or_one_" "as_maybe_"
      = "choose_zero_or_more_" ++ n :=
    subPre_noMatch _ _ _ (ssw_append_false _ _ _ (by rfl))
  have h3 : subPre ("choose_zero_or_more_" ++ n) "choose_one_or_more_" "as_multi_"
      = "choose_zero_or_more_" ++ n :=
    subPre_noMatch _ _ _ (ssw_append_false _ _ _ (by rfl))
  have h4 : subPre ("choose_zero_or_more_" ++ n) "choose_zero_or_more_" "as_any_"
      = "as_any_" ++ n := subPre_append _ _ _
  unfold normalizeCastKey
  rw [h1, h2, h3, h4]

/-- C6: null tool-call entries are skipped; each non-null entry stores the
whole (key-normalized) value dict into the decoded field's value slot,
replacing any prior value and leaving every other field untouched; the four
legacy cardinality-prefixed cast-result keys are rewritten to their canonical
forms; with two writes to the same field the last one wins. -/
theorem C6_update_processor :
    (∀ iv k rest, process_update_tool iv ((k, (none : Option PDict)) :: rest)
      = process_update_tool iv rest) ∧
    (∀ iv k v iv2, applyEntry iv k v = .ok iv2 →
      fieldValueOf iv2 (decode_field_name k)
          = some (.vdict (pdictMapKeys normalizeCastKey v)) ∧
      (∀ g, g ≠ decode_field_name k → fieldValueOf iv2 g = fieldValueOf iv g)) ∧
    (∀ n, normalizeCastKey ("choose_exactly_one_" ++ n) = "as_one_" ++ n ∧
          normalizeCastKey ("choose_zero_or_one_" ++ n) = "as_maybe_" ++ n ∧
          normalizeCastKey ("choose_one_or_more_" ++ n) = "as_multi_" ++ n ∧
          normalizeCastKey ("choose_zero_or_more_" ++ n) = "as_any_" ++ n) ∧
    (∀ iv k v1 v2 iv2,
      process_update_tool iv [(k, some v1), (k, some v2)] = (iv2, none) →
      fieldValueOf iv2 (decode_field_name k)
        = some (.vdict (pdictMapKeys normalizeCastKey v2))) := by
  refine ⟨fun iv k rest => rfl, ?_, ?_, ?_⟩
  · intro iv k v iv2 h
    exact ⟨applyEntry_fieldValue iv k v iv2 h, fun g hg => applyEntry_other_field iv k v iv2 h g hg⟩
  · intro n
    exact ⟨normalizeCastKey_exactly_one n, normalizeCastKey_zero_or_one n,
      normalizeCastKey_one_or_more n, normalizeCastKey_zero_or_more n⟩
  · intro iv k v1 v2 iv2 h
    unfold process_update_tool at h
    rcases h1 : applyEntry iv k v1 with e | ivm
    · rw [h1] at h
      exact absurd (Prod.mk.injEq _ _ _ _ |>.mp h).2 (by simp)
    · rw [h1] at h
      unfold process_update_tool at h
      rcases h2 : applyEntry ivm k v2 with e | ivf
      · rw [h2] at h
        exact absurd (Prod.mk.injEq _ _ _ _ |>.mp h).2 (by simp)
      · rw [h2] at h
        unfold process_update_tool at h
        have hf : ivf = iv2 := (Prod.mk.injEq _ _ _ _ |>.mp h).1
        subst hf
        exact applyEntry_fieldValue ivm k v2 _ h2

theorem C6_update_processor_witness :
    (process_update_tool ivNameNull
        [("age", (none : Option PDict)),
         ("name", some (pdictOf [("value", .vstr "Ada")])),
         ("name", some (pdictOf [("value", .vstr "Alice")]))]).1 = ivNameAlice ∧
    fieldValueOf ivNameAlice "name" = some (.vdict (pdictOf [("value", .vstr "Alice")])) := by
  constructor
  · decide
  · have h :=
      (C6_update_processor.2.1 (process_update_tool ivNameNull
          [("name", some (pdictOf [("value", .vstr "Ada")]))]).1
        "name" (pdictOf [("value", .vstr "Alice")]) ivNameAlice (by decide)).1
    simpa using h

theorem pdict_all_set (d : PDict) (p : String → PVal → Bool) (k : String) (w : PVal)
    (hall : PDict.all p d = true) (hp : p k w = true) :
    PDict.all p (PDict.set d k w) = true := by
  match d with
  | .nil => simp [PDict.set, PDict.all, hp]
  | .cons k2 v2 rest =>
    simp only [PDict.all, Bool.and_eq_true] at hall
    by_cases h2 : k2 = k
    · simp only [PDict.set, h2, if_true, PDict.all, Bool.and_eq_true]
      exact ⟨hp, hall.2⟩
    · simp only [PDict.set, h2, if_false, PDict.all, Bool.and_eq_true]
      exact ⟨hall.1, pdict_all_set rest p k w hall.2 hp⟩

theorem applyEntry_pres_nonNull (iv : PVal) (k : String) (v : PDict) (iv2 : PVal)
    (h : applyEntry iv k v = .ok iv2) (f : String) (hf : fieldNonNullB iv f = true) :
    fieldNonNullB iv2 f = true := by
  by_cases hfk : f = decode_field_name k
  · subst hfk
    have hv := applyEntry_fieldValue iv k v iv2 h
    unfold fieldValueOf at hv
    unfold fieldNonNullB nonNullAtB
    rw [hv]
  · have hv := applyEntry_other_field iv k v iv2 h f hfk
    unfold fieldValueOf at hv
    unfold fieldNonNullB nonNullAtB at hf ⊢
    rw [hv]
    exact hf

theorem applyEntry_pres_enough (iv : PVal) (k : String) (v : PDict) (iv2 : PVal)
    (h : applyEntry iv k v = .ok iv2) (he : interviewEnough iv = true) :
    interviewEnough iv2 = true := by
  obtain ⟨top, fl, fdl, hiv, hfl, hfd, hiv2⟩ := applyEntry_ok_shape iv k v iv2 h
  subst hiv2
  subst hiv
  unfold interviewEnough at he ⊢
  simp only [dget, hfl] at he
  simp only [dget, pdict_lookup_set_self]
  refine pdict_all_set fl _ _ _ he ?_
  simp [fieldValueSet, dget, pdict_lookup_set_self]

theorem applyEntry_pres_done (iv : PVal) (k : String) (v : PDict) (iv2 : PVal)
    (h : applyEntry iv k v = .ok iv2) (hd : interviewDone iv = true) :
    interviewDone iv2 = true := by
  unfold interviewDone at hd
  simp only [Bool.and_eq_true] at hd
  obtain ⟨top, fl, fdl, hiv, hfl, hfd, hiv2⟩ := applyEntry_ok_shape iv k v iv2 h
  have he2 := applyEntry_pres_enough iv k v iv2 h hd.1
  unfold interviewDone
  simp only [Bool.and_eq_true]
  refine ⟨he2, ?_⟩
  have hq := hd.2
  subst hiv2
  subst hiv
  simp only [dget, hfl] at hq
  simp only [dget, pdict_lookup_set_self]
  refine pdict_all_set fl _ _ _ hq ?_
  simp [fieldValueSet, dget, pdict_lookup_set_self]

theorem process_pres_nonNull (args : List (String × Option PDict)) (iv : PVal) (f : String)
    (hf : fieldNonNullB iv f = true) :
    fieldNonNullB (process_update_tool iv args).1 f = true := by
  match args with
  | [] => exact hf
  | (k, none) :: rest => exact process_pres_nonNull rest iv f hf
  | (k, some v) :: rest =>
    unfold process_update_tool
    cases h : applyEntry iv k v with
    | ok iv2 => exact process_pres_nonNull rest iv2 f (applyEntry_pres_nonNull iv k v iv2 h f hf)
    | error e => exact hf

theorem process_pres_enough (args : List (String × Option PDict)) (iv : PVal)
    (he : interviewEnough iv = true) :
    interviewEnough (process_update_tool iv args).1 = true := by
  match args with
  | [] => exact he
  | (k, none) :: rest => exact process_pres_enough rest iv he
  | (k, some v) :: rest =>
    unfold process_update_tool
    cases h : applyEntry iv k v with
    | ok iv2 => exact process_pres_enough rest iv2 (applyEntry_pres_enough iv k v iv2 h he)
    | error e => exact he

theorem process_pres_done (args : List (String × Option PDict)) (iv : PVal)
    (hd : interviewDone iv = true) :
    interviewDone (process_update_tool iv args).1 = true := by
  match args with
  | [] => exact hd
  | (k, none) :: rest => exact process_pres_done rest iv hd
  | (k, some v) :: rest =>
    unfold process_update_tool
    cases h : applyEntry iv k v with
    | ok iv2 => exact process_pres_done rest iv2 (applyEntry_pres_done iv k v iv2 h hd)
    | error e => exact hd

/-- C9: the update loop only ever writes whole non-null value dicts (null
entries are skipped, and a raise aborts the loop without clearing anything),
so a field's value, once non-null, stays non-null across any update
operation, and the derived `enough` / `done` predicates never fall back from
true to false. -/
theorem C9_completeness_monotone (iv : PVal) (args : List (String × Option PDict)) :
    (∀ f, fieldNonNullB iv f = true →
      fieldNonNullB (process_update_tool iv args).1 f = true) ∧
    (interviewEnough iv = true → interviewEnough (process_update_tool iv args).1 = true) ∧
    (interviewDone iv = true → interviewDone (process_update_tool iv args).1 = true) :=
  ⟨fun f hf => process_pres_nonNull args iv f hf,
   fun he => process_pres_enough args iv he,
   fun hd => process_pres_done args iv hd⟩

theorem C9_completeness_monotone_witness :
    fieldNonNullB (process_update_tool ivNameAlice
        [("name", some (pdictOf [("value", .vstr "Bobby")]))]).1 "name" = true ∧
    interviewDone (process_update_tool ivNameAlice
        [("name", some (pdictOf [("value", .vstr "Bobby")]))]).1 = true :=
  ⟨(C9_completeness_monotone ivNameAlice
      [("name", some (pdictOf [("value", .vstr "Bobby")]))]).1 "name" (by decide),
   (C9_completeness_monotone ivNameAlice
      [("name", some (pdictOf [("value", .vstr "Bobby")]))]).2.2 (by decide)⟩

/-! ### Claim C3: digestion runs at most once, flags are monotonic -/

theorem step_parts (s s2 : OState) (h : Step s s2) :
    (s2.node = routeOf s ∨ s2.node = Node.teardown) ∧
    s2.dc = (s.dc || isDigestConfNode s2.node) ∧
    s2.dk = (s.dk || isDigestConcNode s2.node) := by
  unfold Step stepB merge_has_digested at h
  simp only [Bool.and_eq_true, Bool.or_eq_true, decide_eq_true_eq] at h
  exact ⟨h.1.1, h.1.2, h.2⟩

theorem routeOf_digestConf (s : OState) (h : routeOf s = Node.digestConfidentials) :
    s.dc = false := by
  rcases s with ⟨node, dc, dk, enough, toolcall⟩
  cases node with
  | think =>
    simp only [routeOf] at h
    split at h <;> exact Node.noConfusion h
  | tools =>
    simp only [routeOf, routeFromTools] at h
    split at h
    · rename_i hcond
      simp only [Bool.and_eq_true, Bool.not_eq_true'] at hcond
      exact hcond.2
    · split at h <;> exact Node.noConfusion h
  | digestConfidentials =>
    simp only [routeOf, routeFromDigest] at h
    split at h
    · exact Node.noConfusion h
    · split at h <;> exact Node.noConfusion h
  | digestConcludes =>
    simp only [routeOf, routeFromDigest] at h
    split at h
    · exact Node.noConfusion h
    · split at h <;> exact Node.noConfusion h
  | start => exact Node.noConfusion h
  | init => exact Node.noConfusion h
  | listen => exact Node.noConfusion h
  | teardown => exact Node.noConfusion h
  | finish => exact Node.noConfusion h

theorem routeOf_digestConc (s : OState) (h : routeOf s = Node.digestConcludes) :
    s.dk = false := by
  rcases s with ⟨node, dc, dk, enough, toolcall⟩
  cases node with
  | think =>
    simp only [routeOf] at h
    split at h <;> exact Node.noConfusion h
  | tools =>
    simp only [routeOf, routeFromTools] at h
    split at h
    · exact Node.noConfusion h
    · split at h
      · rename_i hc1 hcond
        simp only [Bool.and_eq_true, Bool.not_eq_true'] at hcond
        exact hcond.2
      · exact Node.noConfusion h
  | digestConfidentials =>
    simp only [routeOf, routeFromDigest] at h
    split at h
    · rename_i hcond
      simp only [Bool.and_eq_true, Bool.not_eq_true'] at hcond
      exact hcond.2
    · split at h <;> exact Node.noConfusion h
  | digestConcludes =>
    simp only [routeOf, routeFromDigest] at h
    split at h
    · rename_i hcond
      simp only [Bool.and_eq_true, Bool.not_eq_true'] at hcond
      exact hcond.2
    · split at h <;> exact Node.noConfusion h
  | start => exact Node.noConfusion h
  | init => exact Node.noConfusion h
  | listen => exact Node.noConfusion h
  | teardown => exact Node.noConfusion h
  | finish => exact Node.noConfusion h

theorem trace_dc_mono (f : Nat → OState) (hstep : ∀ n, Step (f n) (f (n + 1)))
    (i j : Nat) (hij : i ≤ j) (hi : (f i).dc = true) : (f j).dc = true := by
  induction j with
  | zero =>
    have h0 : i = 0 := Nat.le_zero.mp hij
    rw [← h0]
    exact hi
  | succ j ih =>
    rcases Nat.lt_or_eq_of_le hij with hlt | heq
    · have hj := ih (Nat.lt_succ_iff.mp hlt)
      rw [(step_parts _ _ (hstep j)).2.1, hj]
      rfl
    · rw [← heq]
      exact hi

theorem trace_dk_mono (f : Nat → OState) (hstep : ∀ n, Step (f n) (f (n + 1)))
    (i j : Nat) (hij : i ≤ j) (hi : (f i).dk = true) : (f j).dk = true := by
  induction j with
  | zero =>
    have h0 : i = 0 := Nat.le_zero.mp hij
    rw [← h0]
    exact hi
  | succ j ih =>
    rcases Nat.lt_or_eq_of_le hij with hlt | heq
    · have hj := ih (Nat.lt_succ_iff.mp hlt)
      rw [(step_parts _ _ (hstep j)).2.2, hj]
      rfl
    · rw [← heq]
      exact hi

theorem trace_conf_occupancy (f : Nat → OState) (hstep : ∀ n, Step (f n) (f (n + 1)))
    (h0 : (f 0).node = Node.init) (n : Nat)
    (hn : (f n).node = Node.digestConfidentials) : (f n).dc = true := by
  cases n with
  | zero => rw [h0] at hn; exact Node.noConfusion hn
  | succ m =>
    rw [(step_parts _ _ (hstep m)).2.1, hn]
    simp [isDigestConfNode]

theorem trace_conc_occupancy (f : Nat → OState) (hstep : ∀ n, Step (f n) (f (n + 1)))
    (h0 : (f 0).node = Node.init) (n : Nat)
    (hn : (f n).node = Node.digestConcludes) : (f n).dk = true := by
  cases n with
  | zero => rw [h0] at hn; exact Node.noConfusion hn
  | succ m =>
    rw [(step_parts _ _ (hstep m)).2.2, hn]
    simp [isDigestConcNode]

/-- C3: along any run of the orchestrator graph (with `end()` jumps allowed
at any point and `enough` re-evaluated freely), each digestion phase is
occupied at most once, and the two `has_digested` flags — combined through
the `merge_has_digested` reducer — are monotonic: once true they stay true. -/
theorem C3_digest_at_most_once (f : Nat → OState)
    (hstep : ∀ n, Step (f n) (f (n + 1)))
    (h0 : (f 0).node = Node.init) :
    (∀ i j, i < j → (f i).node = Node.digestConfidentials →
      (f j).node ≠ Node.digestConfidentials) ∧
    (∀ i j, i < j → (f i).node = Node.digestConcludes →
      (f j).node ≠ Node.digestConcludes) ∧
    (∀ i j, i ≤ j → (f i).dc = true → (f j).dc = true) ∧
    (∀ i j, i ≤ j → (f i).dk = true → (f j).dk = true) ∧
    (∀ b, merge_has_digested true b = true) ∧
    (∀ a, merge_has_digested a true = true) := by
  refine ⟨?_, ?_, trace_dc_mono f hstep, trace_dk_mono f hstep,
    fun b => rfl, fun a => by simp [merge_has_digested]⟩
  · intro i j hij hi hj
    obtain ⟨m, rfl⟩ : ∃ m, j = m + 1 := ⟨j - 1, by omega⟩
    have hroute : routeOf (f m) = Node.digestConfidentials := by
      rcases (step_parts _ _ (hstep m)).1 with hr | ht
      · rw [hj] at hr
        exact hr.symm
      · rw [hj] at ht
        exact Node.noConfusion ht
    have hdcf : (f m).dc = false := routeOf_digestConf _ hroute
    have hocc : (f i).dc = true := trace_conf_occupancy f hstep h0 i hi
    have hmono : (f m).dc = true := trace_dc_mono f hstep i m (by omega) hocc
    rw [hdcf] at hmono
    exact Bool.noConfusion hmono
  · intro i j hij hi hj
    obtain ⟨m, rfl⟩ : ∃ m, j = m + 1 := ⟨j - 1, by omega⟩
    have hroute : routeOf (f m) = Node.digestConcludes := by
      rcases (step_parts _ _ (hstep m)).1 with hr | ht
      · rw [hj] at hr
        exact hr.symm
      · rw [hj] at ht
        exact Node.noConfusion ht
    have hdkf : (f m).dk = false := routeOf_digestConc _ hroute
    have hocc : (f i).dk = true := trace_conc_occupancy f hstep h0 i hi
    have hmono : (f m).dk = true := trace_dk_mono f hstep i m (by omega) hocc
    rw [hdkf] at hmono
    exact Bool.noConfusion hmono

theorem wTrace_step (n : Nat) : Step (wTrace n) (wTrace (n + 1)) := by
  match n with
  | 0 => decide
  | 1 => decide
  | 2 => decide
  | 3 => decide
  | 4 => decide
  | m + 5 =>
    rcases Nat.mod_two_eq_zero_or_one m with hm | hm
    · have h1 : (m + 1) % 2 = 1 := by omega
      have e1 : wTrace (m + 5) = ⟨.think, true, true, true, false⟩ := by
        simp [wTrace, hm]
      have e2 : wTrace (m + 5 + 1) = ⟨.listen, true, true, true, false⟩ := by
        show wTrace ((m + 1) + 5) = _
        simp [wTrace, h1]
      rw [e1, e2]
      decide
    · have h1 : (m + 1) % 2 = 0 := by omega
      have e1 : wTrace (m + 5) = ⟨.listen, true, true, true, false⟩ := by
        simp [wTrace, hm]
      have e2 : wTrace (m + 5 + 1) = ⟨.think, true, true, true, false⟩ := by
        show wTrace ((m + 1) + 5) = _
        simp [wTrace, h1]
      rw [e1, e2]
      decide

theorem C3_digest_at_most_once_witness :
    (wTrace 3).node = Node.digestConfidentials ∧
    (wTrace 9).node ≠ Node.digestConfidentials ∧
    (wTrace 9).node ≠ Node.digestConcludes ∧
    (wTrace 9).dc = true := by
  have h := C3_digest_at_most_once wTrace wTrace_step (by decide)
  exact ⟨by decide,
    h.1 3 9 (by omega) (by decide),
    h.2.1 4 9 (by omega) (by decide),
    h.2.2.1 3 9 (by omega) (by decide)⟩

/-! ### Claim C4: merge monotonicity -/

theorem dget_eq_some (a : PVal) (k : String) (w : PVal) (h : dget a k = some w) :
    ∃ da, a = .vdict da ∧ PDict.lookup da k = some w := by
  cases a with
  | vdict d => exact ⟨d, rfl, h⟩
  | vnull => simp [dget] at h
  | vbool x => simp [dget] at h
  | vint x => simp [dget] at h
  | vstr x => simp [dget] at h
  | vlist x => simp [dget] at h

theorem getAt_cons_some (a : PVal) (k : String) (ks : List String) (w : PVal)
    (h : getAt a (k :: ks) = some w) :
    ∃ w2, dget a k = some w2 ∧ getAt w2 ks = some w := by
  unfold getAt at h
  cases hd : dget a k with
  | none => rw [hd] at h; exact Option.noConfusion h
  | some w2 => rw [hd] at h; exact ⟨w2, rfl, h⟩

theorem nonNullAtB_cons (a : PVal) (k : String) (ks : List String) :
    nonNullAtB a (k :: ks) =
      (match dget a k with
       | some w => nonNullAtB w ks
       | none => false) := by
  cases h : dget a k with
  | none => simp [nonNullAtB, getAt, h]
  | some w => simp [nonNullAtB, getAt, h]

theorem nonNullAtB_nil_true (a : PVal) (h : a ≠ .vnull) : nonNullAtB a [] = true := by
  cases a <;> simp_all [nonNullAtB, getAt]

theorem nonNullAtB_nil_ne (a : PVal) (h : nonNullAtB a [] = true) : a ≠ .vnull := by
  intro he
  subst he
  simp [nonNullAtB, getAt] at h

theorem diffDictGo_removed_mem (rec : List String → PVal → PVal → List Diff)
    (p : List String) (da db : PDict) (k : String) (w : PVal)
    (hda : da.lookup k = some w) (hdb : db.lookup k = none) :
    (⟨p ++ [k], Cat.dictRemoved, some w, none⟩ : Diff) ∈ diffDictGo rec p da db := by
  match da with
  | .nil => simp [PDict.lookup] at hda
  | .cons k2 va rest =>
    by_cases h2 : k2 = k
    · subst h2
      simp [PDict.lookup] at hda
      subst hda
      simp [diffDictGo, hdb]
    · simp only [PDict.lookup, if_neg h2] at hda
      simp only [diffDictGo, List.mem_append]
      exact Or.inr (diffDictGo_removed_mem rec p rest db k w hda hdb)

theorem diffDictGo_sub_mem (rec : List String → PVal → PVal → List Diff)
    (p : List String) (da db : PDict) (k : String) (w wb : PVal)
    (hda : da.lookup k = some w) (hdb : db.lookup k = some wb)
    (x : Diff) (hx : x ∈ rec (p ++ [k]) w wb) :
    x ∈ diffDictGo rec p da db := by
  match da with
  | .nil => simp [PDict.lookup] at hda
  | .cons k2 va rest =>
    by_cases h2 : k2 = k
    · subst h2
      simp [PDict.lookup] at hda
      subst hda
      simp only [diffDictGo, List.mem_append, hdb]
      exact Or.inl hx
    · simp only [PDict.lookup, if_neg h2] at hda
      simp only [diffDictGo, List.mem_append]
      exact Or.inr (diffDictGo_sub_mem rec p rest db k w wb hda hdb x hx)

theorem dictAdded_mem (p : List String) (da db : PDict) (k : String) (wb : PVal)
    (hdb : db.lookup k = some wb) (hda : da.lookup k = none) :
    (⟨p ++ [k], Cat.dictAdded, none, some wb⟩ : Diff) ∈ dictAddedEntries p da db := by
  match db with
  | .nil => simp [PDict.lookup] at hdb
  | .cons k2 vb rest =>
    by_cases h2 : k2 = k
    · subst h2
      simp [PDict.lookup] at hdb
      subst hdb
      simp [dictAddedEntries, hda]
    · simp only [PDict.lookup, if_neg h2] at hdb
      simp only [dictAddedEntries, List.mem_append]
      exact Or.inr (dictAdded_mem p da rest k wb hdb hda)

theorem diffDictGo_nil (rec : List String → PVal → PVal → List Diff)
    (p : List String) (da db : PDict) (k : String) (w : PVal)
    (hnil : diffDictGo rec p da db = []) (hda : da.lookup k = some w) :
    ∃ wb, db.lookup k = some wb ∧ rec (p ++ [k]) w wb = [] := by
  match da with
  | .nil => simp [PDict.lookup] at hda
  | .cons k2 va rest =>
    simp only [diffDictGo, List.append_eq_nil] at hnil
    by_cases h2 : k2 = k
    · subst h2
      simp [PDict.lookup] at hda
      subst hda
      cases hdb : db.lookup k2 with
      | none => rw [hdb] at hnil; simp at hnil
      | some wb =>
        rw [hdb] at hnil
        exact ⟨wb, rfl, hnil.1⟩
    · simp only [PDict.lookup, if_neg h2] at hda
      exact diffDictGo_nil rec p rest db k w hnil.2 hda

theorem dictAdded_nil (p : List String) (da db : PDict) (k : String) (wb : PVal)
    (hnil : dictAddedEntries p da db = []) (hdb : db.lookup k = some wb) :
    (da.lookup k).isSome = true := by
  match db with
  | .nil => simp [PDict.lookup] at hdb
  | .cons k2 vb rest =>
    simp only [dictAddedEntries, List.append_eq_nil] at hnil
    by_cases h2 : k2 = k
    · subst h2
      rcases hs : (da.lookup k2).isSome with hf | ht
      · rw [hs] at hnil
        simp at hnil
      · rfl
    · simp only [PDict.lookup, if_neg h2] at hdb
      exact dictAdded_nil p da rest k wb hnil.2 hdb

theorem diff_acc_pres (ks : List String) :
    ∀ (fuel : Nat) (p : List String) (a b : PVal),
      (∀ e ∈ deepDiffF fuel p a b, acceptableE e = true) →
      nonNullAtB a ks = true → nonNullAtB b ks = true := by
  induction ks with
  | nil =>
    intro fuel p a b hacc ha
    rcases fuel with _ | fuel
    · have h := hacc ⟨p, Cat.exhausted, none, none⟩ (by simp [deepDiffF])
      simp [acceptableE] at h
    · by_cases hb : b = PVal.vnull
      · subst hb
        have hane := nonNullAtB_nil_ne a ha
        cases a with
        | vnull => exact absurd rfl hane
        | vbool x =>
          have h := hacc ⟨p, Cat.typeChanges, some (.vbool x), some .vnull⟩
            (by simp [deepDiffF, ctorIdx])
          simp [acceptableE, acceptTC, isNullOpt] at h
        | vint x =>
          have h := hacc ⟨p, Cat.typeChanges, some (.vint x), some .vnull⟩
            (by simp [deepDiffF, ctorIdx])
          simp [acceptableE, acceptTC, isNullOpt] at h
        | vstr x =>
          have h := hacc ⟨p, Cat.typeChanges, some (.vstr x), some .vnull⟩
            (by simp [deepDiffF, ctorIdx])
          simp [acceptableE, acceptTC, isNullOpt] at h
        | vlist x =>
          have h := hacc ⟨p, Cat.typeChanges, some (.vlist x), some .vnull⟩
            (by simp [deepDiffF, ctorIdx])
          simp [acceptableE, acceptTC, isNullOpt] at h
        | vdict x =>
          have h := hacc ⟨p, Cat.typeChanges, some (.vdict x), some .vnull⟩
            (by simp [deepDiffF, ctorIdx])
          simp [acceptableE, acceptTC, isNullOpt] at h
      · exact nonNullAtB_nil_true b hb
  | cons k ks ih =>
    intro fuel p a b hacc ha
    rw [nonNullAtB_cons] at ha
    rcases hd : dget a k with _ | w
    · rw [hd] at ha
      simp at ha
    · rw [hd] at ha
      obtain ⟨da, rfl, hlk⟩ := dget_eq_some a k w hd
      rcases fuel with _ | fuel
      · have h := hacc ⟨p, Cat.exhausted, none, none⟩ (by simp [deepDiffF])
        simp [acceptableE] at h
      · cases b with
        | vdict db =>
          rcases hdb : db.lookup k with _ | wb
          · have hmem : (⟨p ++ [k], Cat.dictRemoved, some w, none⟩ : Diff)
                ∈ deepDiffF (fuel + 1) p (.vdict da) (.vdict db) := by
              simp only [deepDiffF, List.mem_append]
              exact Or.inl (diffDictGo_removed_mem _ p da db k w hlk hdb)
            have h := hacc _ hmem
            simp [acceptableE] at h
          · have hacc2 : ∀ e ∈ deepDiffF fuel (p ++ [k]) w wb, acceptableE e = true := by
              intro x hx
              refine hacc x ?_
              simp only [deepDiffF, List.mem_append]
              exact Or.inl (diffDictGo_sub_mem _ p da db k w wb hlk hdb x hx)
            have hwb := ih fuel (p ++ [k]) w wb hacc2 ha
            rw [nonNullAtB_cons]
            simp [dget, hdb, hwb]
        | vnull =>
          have h := hacc ⟨p, Cat.typeChanges, some (.vdict da), some .vnull⟩
            (by simp [deepDiffF, ctorIdx])
          simp [acceptableE, acceptTC, isNullOpt] at h
        | vbool x =>
          have h := hacc ⟨p, Cat.typeChanges, some (.vdict da), some (.vbool x)⟩
            (by simp [deepDiffF, ctorIdx])
          simp [acceptableE, acceptTC, isNullOpt] at h
        | vint x =>
          have h := hacc ⟨p, Cat.typeChanges, some (.vdict da), some (.vint x)⟩
            (by simp [deepDiffF, ctorIdx])
          simp [acceptableE, acceptTC, isNullOpt] at h
        | vstr x =>
          have h := hacc ⟨p, Cat.typeChanges, some (.vdict da), some (.vstr x)⟩
            (by simp [deepDiffF, ctorIdx])
          simp [acceptableE, acceptTC, isNullOpt] at h
        | vlist x =>
          have h := hacc ⟨p, Cat.typeChanges, some (.vdict da), some (.vlist x)⟩
            (by simp [deepDiffF, ctorIdx])
          simp [acceptableE, acceptTC, isNullOpt] at h

theorem diff_nil_rev (ks : List String) :
    ∀ (fuel : Nat) (p : List String) (a b : PVal),
      deepDiffF fuel p a b = [] →
      nonNullAtB b ks = true → nonNullAtB a ks = true := by
  induction ks with
  | nil =>
    intro fuel p a b hnil hb
    rcases fuel with _ | fuel
    · simp [deepDiffF] at hnil
    · by_cases hA : a = PVal.vnull
      · subst hA
        have hbne := nonNullAtB_nil_ne b hb
        cases b with
        | vnull => exact absurd rfl hbne
        | vbool x => simp [deepDiffF, ctorIdx] at hnil
        | vint x => simp [deepDiffF, ctorIdx] at hnil
        | vstr x => simp [deepDiffF, ctorIdx] at hnil
        | vlist x => simp [deepDiffF, ctorIdx] at hnil
        | vdict x => simp [deepDiffF, ctorIdx] at hnil
      · exact nonNullAtB_nil_true a hA
  | cons k ks ih =>
    intro fuel p a b hnil hb
    rw [nonNullAtB_cons] at hb
    rcases hd : dget b k with _ | wb
    · rw [hd] at hb
      simp at hb
    · rw [hd] at hb
      obtain ⟨db, rfl, hlkb⟩ := dget_eq_some b k wb hd
      rcases fuel with _ | fuel
      · simp [deepDiffF] at hnil
      · cases a with
        | vdict da =>
          simp only [deepDiffF, List.append_eq_nil] at hnil
          rcases hda : da.lookup k with _ | w
          · have hs := dictAdded_nil p da db k wb hnil.2 hlkb
            rw [hda] at hs
            simp at hs
          · obtain ⟨wb2, hlkb2, hrec⟩ := diffDictGo_nil _ p da db k w hnil.1 hda
            rw [hlkb] at hlkb2
            have hww : wb2 = wb := (Option.some.injEq _ _).mp hlkb2.symm
            subst hww
            have hw := ih fuel (p ++ [k]) w wb2 hrec hb
            rw [nonNullAtB_cons]
            simp [dget, hda, hw]
        | vnull => simp [deepDiffF, ctorIdx] at hnil
        | vbool x => simp [deepDiffF, ctorIdx] at hnil
        | vint x => simp [deepDiffF, ctorIdx] at hnil
        | vstr x => simp [deepDiffF, ctorIdx] at hnil
        | vlist x => simp [deepDiffF, ctorIdx] at hnil

theorem diff_vstr_mem (ks : List String) :
    ∀ (fuel : Nat) (p : List String) (a b : PVal) (s t : String),
      ks.length < fuel →
      getAt a ks = some (.vstr s) → getAt b ks = some (.vstr t) → s ≠ t →
      (⟨p ++ ks, Cat.valuesChanged, some (.vstr s), some (.vstr t)⟩ : Diff)
        ∈ deepDiffF fuel p a b := by
  induction ks with
  | nil =>
    intro fuel p a b s t hlen hga hgb hst
    have ha : a = .vstr s := by simpa [getAt] using hga
    have hb : b = .vstr t := by simpa [getAt] using hgb
    subst ha
    subst hb
    rcases fuel with _ | fuel
    · omega
    · simp [deepDiffF, ctorIdx, PVal.vstr.injEq, hst]
  | cons k ks ih =>
    intro fuel p a b s t hlen hga hgb hst
    obtain ⟨w, hdw, hga2⟩ := getAt_cons_some a k ks _ hga
    obtain ⟨wb, hdwb, hgb2⟩ := getAt_cons_some b k ks _ hgb
    obtain ⟨da, rfl, hlka⟩ := dget_eq_some a k w hdw
    obtain ⟨db, rfl, hlkb⟩ := dget_eq_some b k wb hdwb
    rcases fuel with _ | fuel
    · omega
    · have hlen2 : ks.length < fuel := by
        simp only [List.length_cons] at hlen
        omega
      have hmem := ih fuel (p ++ [k]) w wb s t hlen2 hga2 hgb2 hst
      have hpath : (p ++ [k]) ++ ks = p ++ (k :: ks) := by simp
      rw [hpath] at hmem
      simp only [deepDiffF, List.mem_append]
      exact Or.inl (diffDictGo_sub_mem _ p da db k w wb hlka hlkb _ hmem)

theorem psize_pos (v : PVal) : 0 < psize v := by
  cases v <;> simp [psize]

theorem plookup_psize (d : PDict) (k : String) (w : PVal) (h : PDict.lookup d k = some w) :
    psize w < psizeD d := by
  match d with
  | .nil => simp [PDict.lookup] at h
  | .cons k2 v rest =>
    by_cases h2 : k2 = k
    · simp only [PDict.lookup, if_pos h2, Option.some.injEq] at h
      subst h
      simp only [psizeD]
      omega
    · simp only [PDict.lookup, if_neg h2] at h
      have := plookup_psize rest k w h
      simp only [psizeD]
      omega

theorem getAt_len_lt (ks : List String) :
    ∀ (v w : PVal), getAt v ks = some w → ks.length < psize v := by
  induction ks with
  | nil =>
    intro v w h
    simpa using psize_pos v
  | cons k ks ih =>
    intro v w h
    obtain ⟨w2, hd, hg⟩ := getAt_cons_some v k ks w h
    obtain ⟨d, rfl, hlk⟩ := dget_eq_some v k w2 hd
    have h1 := plookup_psize d k w2 hlk
    have h2 := ih w2 w hg
    simp only [psize, List.length_cons]
    omega

theorem merge_ok_shape (a b : PVal) (r : PVal) (h : merge_interviews a b = .ok r) :
    (∀ e ∈ deepDiff a b, acceptableE e = true) ∧
    ((deepDiff a b = [] ∧ r = a) ∨ r = b) := by
  unfold merge_interviews at h
  by_cases hnil : deepDiff a b = []
  · rw [if_pos hnil] at h
    have hr : r = a := ((Except.ok.injEq _ _).mp h).symm
    refine ⟨?_, Or.inl ⟨hnil, hr⟩⟩
    rw [hnil]
    intro e he
    simp at he
  · rw [if_neg hnil] at h
    rcases hf1 : (deepDiff a b).find?
        (fun e => decide (e.cat = Cat.typeChanges) && !(acceptTC e)) with _ | e1
    · rw [hf1] at h
      rcases hf2 : (deepDiff a b).find?
          (fun e => decide (e.cat = Cat.valuesChanged) && !(acceptVC e)) with _ | e2
      · rw [hf2] at h
        cases hany : (deepDiff a b).any (fun e =>
            decide (e.cat = Cat.dictRemoved) || decide (e.cat = Cat.iterRemoved)
              || decide (e.cat = Cat.exhausted)) with
        | true =>
          rw [if_pos (by rw [hany])] at h
          exact Except.noConfusion h
        | false =>
          rw [if_neg (by rw [hany]; exact Bool.noConfusion)] at h
          have hr : r = b := ((Except.ok.injEq _ _).mp h).symm
          refine ⟨?_, Or.inr hr⟩
          intro e he
          have hp1 := List.find?_eq_none.mp hf1 e he
          have hp2 := List.find?_eq_none.mp hf2 e he
          have hp3 : ¬((decide (e.cat = Cat.dictRemoved) || decide (e.cat = Cat.iterRemoved)
              || decide (e.cat = Cat.exhausted)) = true) := by
            intro hx
            have ht : (deepDiff a b).any (fun e =>
                decide (e.cat = Cat.dictRemoved) || decide (e.cat = Cat.iterRemoved)
                  || decide (e.cat = Cat.exhausted)) = true :=
              List.any_eq_true.mpr ⟨e, he, hx⟩
            rw [hany] at ht
            exact Bool.noConfusion ht
          rcases hc : e.cat with _ | _ | _ | _ | _ | _ | _
          · have htc : acceptTC e = true := by simpa [hc] using hp1
            simpa [acceptableE, hc] using htc
          · have hvc : acceptVC e = true := by simpa [hc] using hp2
            simpa [acceptableE, hc] using hvc
          · simp [acceptableE, hc]
          · exact absurd (by simp [hc]) hp3
          · simp [acceptableE, hc]
          · exact absurd (by simp [hc]) hp3
          · exact absurd (by simp [hc]) hp3
      · rw [hf2] at h
        exact Except.noConfusion h
    · rw [hf1] at h
      exact Except.noConfusion h

theorem merge_error_of_bad (a b : PVal) (e : Diff) (he : e ∈ deepDiff a b)
    (hbad : acceptableE e = false) : ∃ msg, merge_interviews a b = .error msg := by
  rcases h : merge_interviews a b with msg | r
  · exact ⟨msg, rfl⟩
  · have hacc := (merge_ok_shape a b r h).1 e he
    rw [hbad] at hacc
    exact Bool.noConfusion hacc

/-- C4 amended: an accepted merge never loses a non-null value (at any path,
in particular no populated field) from either snapshot; a field value
reverting from non-null to null always raises; and a truthy natural value
changing to a different one always raises.  The claim's original form is
falsified only in that the falsy-to-truthy acceptance applies to every falsy
value, not just flags: a non-null but falsy value (such as an empty string)
changing to a truthy one is accepted (see the counterexample). -/
theorem C4_merge_monotone (a b : PVal) :
    (∀ r, merge_interviews a b = .ok r →
      (∀ ks, nonNullAtB a ks = true → nonNullAtB r ks = true) ∧
      (∀ ks, nonNullAtB b ks = true → nonNullAtB r ks = true)) ∧
    (∀ f va, fieldValueOf a f = some va → va ≠ .vnull →
      fieldValueOf b f = some .vnull →
      ∃ msg, merge_interviews a b = .error msg) ∧
    (∀ f s t, natValueOf a f = some (.vstr s) → s ≠ "" →
      natValueOf b f = some (.vstr t) → t ≠ s →
      ∃ msg, merge_interviews a b = .error msg) := by
  have hpres : ∀ r, merge_interviews a b = .ok r →
      (∀ ks, nonNullAtB a ks = true → nonNullAtB r ks = true) ∧
      (∀ ks, nonNullAtB b ks = true → nonNullAtB r ks = true) := by
    intro r h
    obtain ⟨hacc, hr⟩ := merge_ok_shape a b r h
    rcases hr with ⟨hnil, hra⟩ | hrb
    · refine ⟨fun ks hk => ?_, fun ks hk => ?_⟩
      · rw [hra]; exact hk
      · rw [hra]; exact diff_nil_rev ks (psize a + psize b) [] a b hnil hk
    · refine ⟨fun ks hk => ?_, fun ks hk => ?_⟩
      · rw [hrb]; exact diff_acc_pres ks (psize a + psize b) [] a b hacc hk
      · rw [hrb]; exact hk
  refine ⟨hpres, ?_, ?_⟩
  · intro f va hva hvn hbn
    rcases h : merge_interviews a b with msg | r
    · exact ⟨msg, rfl⟩
    · exfalso
      have hka : nonNullAtB a ["fields", f, "value"] = true := by
        unfold nonNullAtB
        unfold fieldValueOf at hva
        rw [hva]
        cases va <;> simp_all
      have hkb : nonNullAtB b ["fields", f, "value"] = true := by
        have hacc := (merge_ok_shape a b r h).1
        exact diff_acc_pres ["fields", f, "value"] (psize a + psize b) [] a b hacc hka
      unfold nonNullAtB at hkb
      unfold fieldValueOf at hbn
      rw [hbn] at hkb
      exact Bool.noConfusion hkb
  · intro f s t hna hs hnb hts
    unfold natValueOf at hna hnb
    have hlen : (["fields", f, "value", "value"] : List String).length
        < psize a + psize b := by
      have h1 := getAt_len_lt ["fields", f, "value", "value"] a _ hna
      have h2 := psize_pos b
      omega
    have hmem := diff_vstr_mem ["fields", f, "value", "value"]
      (psize a + psize b) [] a b s t hlen hna hnb (fun he => hts he.symm)
    rw [List.nil_append] at hmem
    have hbad : acceptableE
        (⟨["fields", f, "value", "value"], Cat.valuesChanged,
          some (.vstr s), some (.vstr t)⟩ : Diff) = false := by
      have hap : (["fields", f, "value", "value"] : List String) ≠ alicePath := by
        simp [alicePath]
      have hbp : (["fields", f, "value", "value"] : List String) ≠ bobPath := by
        simp [bobPath]
      simp [acceptableE, acceptVC, isNullOpt, falsyOpt, truthyOpt, pfalsy, hs, hap, hbp]
    exact merge_error_of_bad a b _ hmem hbad

/-- C4 counterexample: a non-null natural value (the empty string) changing
to a different non-null value (`Bob`) is accepted by the merge — the
falsy-to-truthy rule fires — instead of raising an error as the claim
demands for any non-null-to-different-non-null change. -/
theorem C4_nonnull_overwrite_accepted :
    natValueOf ivNameEmptyStr "name" = some (.vstr "") ∧
    natValueOf ivNameBob "name" = some (.vstr "Bob") ∧
    (PVal.vstr "" ≠ PVal.vnull) ∧
    merge_interviews ivNameEmptyStr ivNameBob = .ok ivNameBob :=
  ⟨by decide, by decide, by decide, by decide⟩

theorem C4_merge_monotone_witness :
    nonNullAtB ivNameAlice ["fields", "name", "value"] = true ∧
    (∃ msg, merge_interviews ivNameAlice ivNameNull = .error msg) ∧
    (∃ msg, merge_interviews ivNameAlice ivNameBob = .error msg) := by
  refine ⟨?_, ?_, ?_⟩
  · exact ((C4_merge_monotone ivNameNull ivNameAlice).1 ivNameAlice (by decide)).2
      ["fields", "name", "value"] (by decide)
  · exact (C4_merge_monotone ivNameAlice ivNameNull).2.1 "name"
      (.vdict (pdictOf [("value", .vstr "Alice")])) (by decide) (by decide) (by decide)
  · exact (C4_merge_monotone ivNameAlice ivNameBob).2.2 "name" "Alice" "Bob"
      (by decide) (by decide) (by decide) (by decide)
